import Mathlib

/-!
# cf-address: `utils/csv.go`

A shallow embedding of the post-measurement pipeline of `utils/csv.go`
(loss-rate cache, delay and loss-rate filters, the delay/loss-rate ranking, the
per-region capping stage of `ExportCsv`, the row formatters, the exporters and
the console printer) together with theorems about it.

Modelling conventions

* Go `int` (on a 64-bit platform) and `time.Duration` are 64-bit signed
  integers; they are modelled by `Int`, with `wrapInt64` applied where the
  source performs arithmetic.
* Go `float32` / `float64` are modelled by `GoFloat`: a NaN, the two
  infinities, and sign/magnitude finite values whose magnitude is a rational
  number.  Arithmetic rounds to nearest, ties to even, at the precision of the
  format (`roundMag`).
* The process-wide variables (`InputMaxDelay`, `InputMinDelay`,
  `InputMaxLossRate`, `Output`, `PrintNum`, `coloLimit`) are the fields of
  `Config`, passed explicitly.
* The library functions the file calls (`strconv.Itoa`, `strconv.FormatFloat`,
  `time.Duration.Seconds`, `net.IPAddr.String`, `strings.TrimSuffix`) are
  modelled from their Go definitions; file and console output are modelled as
  lists of events (`FileEvent`, `ConsoleEvent`).
* `CloudflareIPData` embeds a `*PingData`; the pointer is never nil in the
  code paths modelled here and the pointee is never written, so the record is
  flattened.
-/

namespace CfAddress

/-! ## Integers -/

/-- Two's-complement wrap of a mathematical integer into the `int64` range. -/
def wrapInt64 (x : Int) : Int :=
  (x + 2 ^ 63) % 2 ^ 64 - 2 ^ 63

/-- Membership in the `int64` range. -/
def InInt64 (x : Int) : Prop := -(2 ^ 63) ≤ x ∧ x < 2 ^ 63

instance (x : Int) : Decidable (InInt64 x) := by
  unfold InInt64; infer_instance

/-! ## Floating point values -/

/-- An IEEE-754 binary floating point datum: NaN, a signed infinity, or a
finite value given by its sign bit and its magnitude (so `fin true 0` is the
negative zero). -/
inductive GoFloat where
  | nan : GoFloat
  | inf (neg : Bool) : GoFloat
  | fin (neg : Bool) (mag : ℚ) : GoFloat
  deriving DecidableEq, Repr

namespace GoFloat

/-- The rational value of a finite datum. -/
def signed (neg : Bool) (mag : ℚ) : ℚ := if neg then -mag else mag

/-- Positive zero, the Go zero value of a float variable. -/
def zero : GoFloat := fin false 0

/-- The constant `1.0`. -/
def one : GoFloat := fin false 1

/-- Go `a < b` on floats (false as soon as one operand is NaN). -/
def lt : GoFloat → GoFloat → Bool
  | nan, _ => false
  | _, nan => false
  | inf n₁, inf n₂ => n₁ && !n₂
  | inf n, fin _ _ => n
  | fin _ _, inf n => !n
  | fin s₁ m₁, fin s₂ m₂ => decide (signed s₁ m₁ < signed s₂ m₂)

/-- Go `a == b` on floats (false as soon as one operand is NaN; the two zeros
are equal). -/
def eq : GoFloat → GoFloat → Bool
  | nan, _ => false
  | _, nan => false
  | inf n₁, inf n₂ => n₁ == n₂
  | inf _, fin _ _ => false
  | fin _ _, inf _ => false
  | fin s₁ m₁, fin s₂ m₂ => decide (signed s₁ m₁ = signed s₂ m₂)

/-- Go `a != b`. -/
def ne (a b : GoFloat) : Bool := !(eq a b)

/-- Go `a > b`. -/
def gt (a b : GoFloat) : Bool := lt b a

/-- Go `a <= b`. -/
def le (a b : GoFloat) : Bool := lt a b || eq a b

/-- Go `a >= b`. -/
def ge (a b : GoFloat) : Bool := le b a

end GoFloat

/-- The parameters of a binary floating point format: the precision in bits
(hidden bit included) and the exponents of the smallest and of the largest
normal binade. -/
structure FloatFormat where
  prec : ℕ
  emin : ℤ
  emax : ℤ
  deriving DecidableEq, Repr

/-- IEEE-754 binary32, the Go type `float32`. -/
def binary32 : FloatFormat := ⟨24, -126, 127⟩

/-- IEEE-754 binary64, the Go type `float64`. -/
def binary64 : FloatFormat := ⟨53, -1022, 1023⟩

/-- Rounding of a rational to the nearest integer, ties to the even one. -/
def roundHalfEven (q : ℚ) : ℤ :=
  if q - ⌊q⌋ < 1 / 2 then ⌊q⌋
  else if 1 / 2 < q - ⌊q⌋ then ⌊q⌋ + 1
  else if ⌊q⌋ % 2 = 0 then ⌊q⌋ else ⌊q⌋ + 1

/-- The exponent of the binade in which a magnitude is rounded: the position of
its leading bit, but never below the subnormal binade. -/
def binade (fmt : FloatFormat) (q : ℚ) : ℤ := max (Int.log 2 q) fmt.emin

/-- The spacing of the representable numbers in the binade of `q`. -/
def ulp (fmt : FloatFormat) (q : ℚ) : ℚ := 2 ^ (binade fmt q - (fmt.prec - 1))

/-- Round-to-nearest-even of a magnitude to the precision of the format, with
an unbounded exponent above. -/
def roundMag (fmt : FloatFormat) (q : ℚ) : ℚ :=
  roundHalfEven (q / ulp fmt q) * ulp fmt q

namespace GoFloat

/-- The datum with sign `neg` nearest to the magnitude `q`; a rounded magnitude
past the largest binade overflows to infinity. -/
def ofMag (fmt : FloatFormat) (neg : Bool) (q : ℚ) : GoFloat :=
  if roundMag fmt q < 2 ^ (fmt.emax + 1) then fin neg (roundMag fmt q) else inf neg

/-- The conversion `float32(n)` / `float64(n)` of a Go integer. -/
def ofInt (fmt : FloatFormat) (n : Int) : GoFloat :=
  ofMag fmt (decide (n < 0)) |(n : ℚ)|

/-- Go `a / b` on floats of the given format. -/
def div (fmt : FloatFormat) : GoFloat → GoFloat → GoFloat
  | nan, _ => nan
  | _, nan => nan
  | inf _, inf _ => nan
  | inf s, fin t _ => inf (xor s t)
  | fin s _, inf t => fin (xor s t) 0
  | fin s m, fin t n =>
    if n = 0 then (if m = 0 then nan else inf (xor s t))
    else ofMag fmt (xor s t) (m / n)

end GoFloat

/-! ## Constants and configuration (`csv.go` lines 14-28) -/

/-- Nanoseconds in `time.Millisecond`. -/
def millisecond : Int := 1000000

/-- The constant `maxDelay = 9999 * time.Millisecond`. -/
def maxDelay : Int := 9999 * millisecond

/-- The constant `minDelay = 0 * time.Millisecond`. -/
def minDelay : Int := 0 * millisecond

/-- The constant `maxLossRate float32 = 1.0`. -/
def maxLossRate : GoFloat := GoFloat.one

/-- The package-level variables. -/
structure Config where
  InputMaxDelay : Int
  InputMinDelay : Int
  InputMaxLossRate : GoFloat
  Output : String
  PrintNum : Int
  coloLimit : Int
  deriving DecidableEq, Repr

/-- The initial values of the package-level variables. -/
def defaultConfig : Config where
  InputMaxDelay := maxDelay
  InputMinDelay := minDelay
  InputMaxLossRate := maxLossRate
  Output := "./dist/result.csv"
  PrintNum := 10
  coloLimit := 8

/-! ## Records (`csv.go` lines 40-52) -/

/-- The type `net.IPAddr`: the address bytes and the IPv6 zone. -/
structure IPAddr where
  IP : List Nat
  Zone : String
  deriving DecidableEq, Repr

/-- The type `CloudflareIPData`, with the embedded `PingData` flattened. -/
structure CloudflareIPData where
  IP : IPAddr
  Sended : Int
  Received : Int
  Delay : Int
  Colo : String
  lossRate : GoFloat
  DownloadSpeed : GoFloat
  deriving DecidableEq, Repr

/-- The type `PingDelaySet`. -/
abbrev PingDelaySet := List CloudflareIPData

/-! ## `FilterDelay` (`csv.go` lines 192-209) -/

/-- The `for _, v := range s` loop of `FilterDelay`; the second argument is the
result slice `data` built so far. -/
def FilterDelay.loop (cfg : Config) : List CloudflareIPData → PingDelaySet → PingDelaySet
  | [], data => data
  | v :: rest, data =>
    if v.Delay > cfg.InputMaxDelay then data
    else if v.Delay < cfg.InputMinDelay then FilterDelay.loop cfg rest data
    else FilterDelay.loop cfg rest (data ++ [v])

/-- The method `PingDelaySet.FilterDelay`. -/
def FilterDelay (cfg : Config) (s : PingDelaySet) : PingDelaySet :=
  if cfg.InputMaxDelay > maxDelay ∨ cfg.InputMinDelay < minDelay then s
  else if cfg.InputMaxDelay = maxDelay ∧ cfg.InputMinDelay = minDelay then s
  else FilterDelay.loop cfg s []

/-- The record's delay lies in the configured window. -/
def inWindow (cfg : Config) (r : CloudflareIPData) : Bool :=
  decide (cfg.InputMinDelay ≤ r.Delay ∧ r.Delay ≤ cfg.InputMaxDelay)

/-! ## `getLossRate` (`csv.go` lines 54-61) -/

/-- The method `CloudflareIPData.getLossRate`: the value returned and the
record as the call leaves it (the receiver is a pointer). -/
def getLossRate (cf : CloudflareIPData) : GoFloat × CloudflareIPData :=
  if GoFloat.eq cf.lossRate GoFloat.zero then
    let pingLost := wrapInt64 (cf.Sended - cf.Received)
    let lossRate := GoFloat.div binary32 (GoFloat.ofInt binary32 pingLost)
      (GoFloat.ofInt binary32 cf.Sended)
    (lossRate, { cf with lossRate := lossRate })
  else (cf.lossRate, cf)

/-! ## `FilterLossRate` (`csv.go` lines 212-223) -/

/-- The `for _, v := range s` loop of `FilterLossRate`.  `v` is a copy of the
element; `getLossRate` writes its cache into that copy, and the copy is what is
appended to `data`. -/
def FilterLossRate.loop (cfg : Config) : List CloudflareIPData → PingDelaySet → PingDelaySet
  | [], data => data
  | v :: rest, data =>
    if GoFloat.gt (getLossRate v).1 cfg.InputMaxLossRate then data
    else FilterLossRate.loop cfg rest (data ++ [(getLossRate v).2])

/-- The method `PingDelaySet.FilterLossRate`. -/
def FilterLossRate (cfg : Config) (s : PingDelaySet) : PingDelaySet :=
  if GoFloat.ge cfg.InputMaxLossRate maxLossRate then s
  else FilterLossRate.loop cfg s []

/-! ## `PingDelaySet.Less` (`csv.go` lines 228-234) -/

/-- The method `PingDelaySet.Less`: the result and the slice as the call leaves
it (`s[i].getLossRate()` writes the cache of the element in place, before
`s[j].getLossRate()` runs).  An index out of range panics: `none`. -/
def Less (s : PingDelaySet) (i j : Nat) : Option (Bool × PingDelaySet) :=
  match s[i]? with
  | none => none
  | some si =>
    let iRate := (getLossRate si).1
    let s₁ := s.set i (getLossRate si).2
    match s₁[j]? with
    | none => none
    | some sj =>
      let jRate := (getLossRate sj).1
      let s₂ := s₁.set j (getLossRate sj).2
      if GoFloat.ne iRate jRate then some (GoFloat.lt iRate jRate, s₂)
      else some (decide (si.Delay < sj.Delay), s₂)

/-- The slice is in the order of the delay/loss-rate ranking: no pair of
positions `i < j` has `Less(j, i)`. -/
def RankOrdered (s : PingDelaySet) : Prop :=
  ∀ j < s.length, ∀ i < j, (Less s j i).map Prod.fst ≠ some true

instance (s : PingDelaySet) : Decidable (RankOrdered s) := by
  unfold RankOrdered; infer_instance

/-! ## The grouping stage of `ExportCsv` (`csv.go` lines 126-144) -/

/-- A Go `map[string][]CloudflareIPData`, as an association list with distinct
keys.  The order of the association list carries no meaning: see
`IterationOrder`. -/
abbrev ColoMap := List (String × List CloudflareIPData)

/-- The map read `m[k]`: the zero value (a nil slice) when the key is absent. -/
def ColoMap.get : ColoMap → String → List CloudflareIPData
  | [], _ => []
  | (k', v') :: m, k => if k' = k then v' else ColoMap.get m k

/-- The map write `m[k] = v`. -/
def ColoMap.set : ColoMap → String → List CloudflareIPData → ColoMap
  | [], k, v => [(k, v)]
  | (k', v') :: m, k, v => if k' = k then (k, v) :: m else (k', v') :: ColoMap.set m k v

/-- The first loop of `ExportCsv`: `colos[v.Colo] = append(colos[v.Colo], v)`
for each record of `data`. -/
def ExportCsv.colos (data : List CloudflareIPData) : ColoMap :=
  data.foldl (fun colos v => colos.set v.Colo (colos.get v.Colo ++ [v])) []

/-- The order in which a `range` over a Go map visits it is not specified: any
arrangement `it` of the entries of the map may be the one a run takes. -/
def IterationOrder (m it : ColoMap) : Prop := it.Perm m

instance (m it : ColoMap) : Decidable (IterationOrder m it) := by
  unfold IterationOrder; infer_instance

/-- The inner loop of `ExportCsv` over one bucket, with the counter `count` and
the slice `limitedData` built so far. -/
def ExportCsv.capLoop (coloLimit : Int) :
    List CloudflareIPData → Int → List CloudflareIPData → List CloudflareIPData
  | [], _, limitedData => limitedData
  | ipData :: rest, count, limitedData =>
    if count ≥ coloLimit then limitedData
    else ExportCsv.capLoop coloLimit rest (count + 1) (limitedData ++ [ipData])

/-- The second loop of `ExportCsv`, run over the map entries in the order `it`:
the slice `limitedData` handed to the exporters. -/
def ExportCsv.limitedData (cfg : Config) (it : ColoMap) : List CloudflareIPData :=
  it.foldl (fun limitedData e => ExportCsv.capLoop cfg.coloLimit e.2 0 limitedData) []

/-- The keys of the map are distinct, every bucket is the non-empty list of the
records of `data` with the key as region code, in input order, and every region code of `data`
is a key. -/
def Grouped (data : List CloudflareIPData) (m : ColoMap) : Prop :=
  (m.map Prod.fst).Nodup ∧
    (∀ e ∈ m, e.2 = data.filter (fun r => decide (r.Colo = e.1)) ∧ e.2 ≠ []) ∧
    (∀ r ∈ data, r.Colo ∈ m.map Prod.fst)

instance (data : List CloudflareIPData) (m : ColoMap) : Decidable (Grouped data m) := by
  unfold Grouped; infer_instance

/-- A record with well-formed counters and an empty cache. -/
def FreshRecord (r : CloudflareIPData) : Prop :=
  0 < r.Sended ∧ 0 ≤ r.Received ∧ r.Received ≤ r.Sended ∧ InInt64 r.Sended ∧
    r.lossRate = GoFloat.zero

instance (r : CloudflareIPData) : Decidable (FreshRecord r) := by
  unfold FreshRecord; infer_instance

/-! ## More float arithmetic -/

namespace GoFloat

/-- Go `a + b` on floats of the given format. -/
def add (fmt : FloatFormat) : GoFloat → GoFloat → GoFloat
  | nan, _ => nan
  | _, nan => nan
  | inf s, inf t => if s = t then inf s else nan
  | inf s, fin _ _ => inf s
  | fin _ _, inf t => inf t
  | fin s m, fin t n =>
    if signed s m + signed t n = 0 then fin (s && t) 0
    else ofMag fmt (decide (signed s m + signed t n < 0)) |signed s m + signed t n|

/-- Go `a * b` on floats of the given format. -/
def mul (fmt : FloatFormat) : GoFloat → GoFloat → GoFloat
  | nan, _ => nan
  | _, nan => nan
  | inf s, inf t => inf (xor s t)
  | inf s, fin t n => if n = 0 then nan else inf (xor s t)
  | fin s m, inf t => if m = 0 then nan else inf (xor s t)
  | fin s m, fin t n => ofMag fmt (xor s t) (m * n)

/-- The conversion `float32(x)` of a `float64`. -/
def toFloat32 : GoFloat → GoFloat
  | nan => nan
  | inf s => inf s
  | fin s m => ofMag binary32 s m

end GoFloat

/-! ## `strconv` and `time` -/

/-- The decimal digit `d` as a string. -/
def digitString (d : Nat) : String := String.singleton (Nat.digitChar d)

/-- The function `strconv.Itoa`. -/
def Itoa (n : Int) : String :=
  if n < 0 then "-" ++ Nat.repr n.natAbs else Nat.repr n.natAbs

/-- The digits of `strconv.FormatFloat(_, 'f', prec, _)` for a magnitude: the
magnitude is rounded to `prec` decimals, ties to even, and written with exactly
`prec` digits after the point. -/
def formatFixed (m : ℚ) (prec : Nat) : String :=
  let n := (roundHalfEven (m * 10 ^ prec)).toNat
  Nat.repr (n / 10 ^ prec) ++ (if prec = 0 then "" else ".") ++
    String.join ((List.range prec).map (fun i => digitString (n / 10 ^ (prec - 1 - i) % 10)))

/-- The function `strconv.FormatFloat(f, 'f', prec, 32)`: the value is first
rounded to `float32`. -/
def FormatFloat32 (f : GoFloat) (prec : Nat) : String :=
  match GoFloat.toFloat32 f with
  | GoFloat.nan => "NaN"
  | GoFloat.inf false => "+Inf"
  | GoFloat.inf true => "-Inf"
  | GoFloat.fin neg m => (if neg then "-" else "") ++ formatFixed m prec

/-- Nanoseconds in `time.Second`. -/
def second : Int := 1000000000

/-- The method `time.Duration.Seconds`. -/
def Duration.Seconds (d : Int) : GoFloat :=
  let sec := Int.tdiv d second
  let nsec := Int.tmod d second
  GoFloat.add binary64 (GoFloat.ofInt binary64 sec)
    (GoFloat.div binary64 (GoFloat.ofInt binary64 nsec) (GoFloat.fin false 1000000000))

/-! ## `net.IPAddr.String` -/

/-- Two lower-case hexadecimal digits per byte. -/
def hexString (b : List Nat) : String :=
  String.join (b.map (fun x => digitString (x / 16 % 16) ++ digitString (x % 16)))

/-- The method `net.IP.To4`: the four bytes of an IPv4 address, given either
as four bytes or as an IPv4-mapped sixteen. -/
def IPTo4 (ip : List Nat) : Option (List Nat) :=
  if ip.length = 4 then some ip
  else if ip.length = 16 ∧ ip.take 10 = List.replicate 10 0 ∧ ip.getD 10 0 = 255 ∧
      ip.getD 11 0 = 255 then some (ip.drop 12)
  else none

/-- The eight 16-bit groups of a sixteen-byte address. -/
def ip6Words (ip : List Nat) : List Nat :=
  (List.range 8).map (fun i => ip.getD (2 * i) 0 * 256 + ip.getD (2 * i + 1) 0)

/-- The number of consecutive zero groups at the head of a list of groups. -/
def zeroRun : List Nat → Nat
  | [] => 0
  | w :: ws => if w = 0 then zeroRun ws + 1 else 0

/-- The first loop of the IPv6 formatter: the first longest run of at least
two zero groups, as `(zeroStart, zeroEnd)`, starting from the run found so far
and scanning from group `i`. -/
def ip6ZeroSpan (words : List Nat) : Nat → Nat → Nat × Nat → Nat × Nat
  | 0, _, span => span
  | fuel + 1, i, span =>
    let l := zeroRun (words.drop i)
    let span := if l ≥ 2 ∧ l > span.2 - span.1 then (i, i + l) else span
    ip6ZeroSpan words fuel (i + 1) span

/-- The second loop of the IPv6 formatter, from group `i` on. -/
def ip6Groups (words : List Nat) (zeroStart zeroEnd : Nat) : Nat → Nat → String
  | 0, _ => ""
  | fuel + 1, i =>
    if i ≥ 8 then ""
    else if i = zeroStart then
      if zeroEnd ≥ 8 then "::"
      else "::" ++ String.mk (Nat.toDigits 16 (words.getD zeroEnd 0)) ++
        ip6Groups words zeroStart zeroEnd fuel (zeroEnd + 1)
    else (if i > 0 then ":" else "") ++ String.mk (Nat.toDigits 16 (words.getD i 0)) ++
      ip6Groups words zeroStart zeroEnd fuel (i + 1)

/-- The method `net.IP.String`. -/
def IPString (ip : List Nat) : String :=
  if ip.length = 0 then "<nil>"
  else if ip.length ≠ 4 ∧ ip.length ≠ 16 then "?" ++ hexString ip
  else match IPTo4 ip with
    | some p4 => String.intercalate "." (p4.map Nat.repr)
    | none =>
      let words := ip6Words ip
      let span := ip6ZeroSpan words 8 0 (255, 255)
      ip6Groups words span.1 span.2 8 0

/-- The method `net.IPAddr.String`. -/
def IPAddr.String (a : IPAddr) : String :=
  let ip := if a.IP.length = 0 then "" else IPString a.IP
  if a.Zone ≠ "" then ip ++ "%" ++ a.Zone else ip


/-! ## `NoPrintResult` and `noOutput` (`csv.go` lines 30-38) -/

/-- The function `NoPrintResult`. -/
def NoPrintResult (cfg : Config) : Bool := decide (cfg.PrintNum = 0)

/-- The function `noOutput`. -/
def noOutput (cfg : Config) : Bool := decide (cfg.Output = "" ∨ cfg.Output = " ")

/-! ## `toString` and `toAirport` (`csv.go` lines 63-119) -/

/-- The method `CloudflareIPData.toString`: the seven fields and the record as
the call leaves it (`getLossRate` writes the cache of the receiver). -/
def toString (cf : CloudflareIPData) : List String × CloudflareIPData :=
  ([cf.IP.String ++ "#" ++ cf.Colo,
    Itoa cf.Sended,
    Itoa cf.Received,
    FormatFloat32 (getLossRate cf).1 2,
    FormatFloat32 (GoFloat.mul binary64 (Duration.Seconds cf.Delay) (GoFloat.fin false 1000)) 2,
    FormatFloat32 (GoFloat.div binary64
      (GoFloat.div binary64 cf.DownloadSpeed (GoFloat.fin false 1024)) (GoFloat.fin false 1024)) 2,
    cf.Colo],
   (getLossRate cf).2)

/-- The map literal `airportMap` of `toAirport`. -/
def airportMap : List (String × String) :=
  [("YUL", "蒙特利尔"), ("LAX", "洛杉矶"), ("PEK", "北京首都"), ("HKG", "香港"),
   ("SJC", "圣何塞市"), ("IAD", "华盛顿"), ("NRT", "东京"), ("ORD", "芝加哥"),
   ("JFK", "纽约"), ("CDG", "巴黎"), ("LHR", "伦敦"), ("SIN", "新加坡"),
   ("FRA", "法兰克福"), ("DXB", "迪拜"), ("SYD", "悉尼"), ("AMS", "阿姆斯特丹"),
   ("KIX", "大阪"), ("ICN", "首尔"), ("BKK", "曼谷"), ("IST", "伊斯坦"),
   ("SEA", "西雅图"), ("MUC", "慕尼黑"), ("ZRH", "苏黎世"), ("MAD", "马德里"),
   ("SFO", "旧金山"), ("YVR", "温哥华"), ("BOM", "孟买"), ("DEL", "新德里"),
   ("PVG", "上海"), ("TPE", "台北"), ("YYZ", "多伦多"), ("CGK", "雅加达"),
   ("AKL", "奥克兰"), ("KUL", "吉隆坡"), ("CPT", "开普敦"), ("PEM", "普吉岛")]

/-- The method `CloudflareIPData.toAirport`. -/
def toAirport (cf : CloudflareIPData) : String :=
  match airportMap.lookup cf.Colo with
  | some airport => airport
  | none => cf.Colo

/-! ## `convertToStringOnlyIp` and `convertToString` (`csv.go` lines 171-186) -/

/-- The function `convertToStringOnlyIp`. -/
def convertToStringOnlyIp (data : List CloudflareIPData) : List (List String) :=
  data.foldl (fun result v => result ++ [[v.IP.String ++ "#👍" ++ toAirport v]]) []

/-- The function `convertToString`; `toString` runs on the loop's copy of each
record. -/
def convertToString (data : List CloudflareIPData) : List (List String) :=
  data.foldl (fun result v => result ++ [(toString v).1]) []

/-! ## `ExportCsv` (`csv.go` lines 121-169) -/

/-- What `ExportCsv` does to the file system: a file created by `os.Create`,
the rows handed to the `csv.Writer` of a file, and the `log.Fatalf` that ends
the process when a file cannot be created. -/
inductive FileEvent where
  | create (path : String) : FileEvent
  | write (path : String) (rows : List (List String)) : FileEvent
  | fatal (path : String) : FileEvent
  deriving DecidableEq, Repr

/-- The function `strings.TrimSuffix`. -/
def TrimSuffix (s suffix : String) : String :=
  if s.endsWith suffix then s.dropRight suffix.length else s

/-- The header row of the CSV file and of the console table. -/
def headerRow : List String :=
  ["IP 地址", "已发送", "已接收", "丢包率", "平均延迟", "下载速度 (MB/s)", "数据中心"]

/-- The function `ExportCsv`, as the list of its file events.  `it` is the
order in which the range over the map `colos` visits it, and `createFails`
tells for which paths `os.Create` returns an error. -/
def ExportCsv (cfg : Config) (createFails : String → Bool) (it : ColoMap)
    (data : List CloudflareIPData) : List FileEvent :=
  if noOutput cfg ∨ data.length = 0 then []
  else
    let limitedData := ExportCsv.limitedData cfg it
    if createFails cfg.Output then [FileEvent.fatal cfg.Output]
    else
      let TxtOutput := TrimSuffix cfg.Output ".csv" ++ ".txt"
      [FileEvent.create cfg.Output,
        FileEvent.write cfg.Output (headerRow :: convertToString limitedData)] ++
      (if createFails TxtOutput then [FileEvent.fatal TxtOutput]
       else [FileEvent.create TxtOutput,
        FileEvent.write TxtOutput (convertToStringOnlyIp limitedData)])

/-! ## `DownloadSpeedSet.Print` (`csv.go` lines 252-280) -/

/-- The type `DownloadSpeedSet`. -/
abbrev DownloadSpeedSet := List CloudflareIPData

/-- What `Print` writes to the console: a `fmt.Println` of a string, or a
`fmt.Printf` of a format with its arguments. -/
inductive ConsoleEvent where
  | println (text : String) : ConsoleEvent
  | printf (format : String) (args : List String) : ConsoleEvent
  deriving DecidableEq, Repr

/-- The narrow `headFormat` and `dataFormat`. -/
def narrowFormats : String × String :=
  ("%-16s%-5s%-5s%-5s%-6s%-11s%-10s\n", "%-18s%-8s%-8s%-8s%-10s%-15s%-6s\n")

/-- The wide `headFormat` and `dataFormat`. -/
def wideFormats : String × String :=
  ("%-40s%-5s%-5s%-5s%-6s%-11s%-10s\n", "%-42s%-8s%-8s%-8s%-10s%-15s%-6s\n")

/-- The Go builtin `len` of a string: its length in bytes. -/
def strLen (s : String) : Nat := s.utf8ByteSize

/-- The loop of `Print` that chooses the formats, over the rows
`dateString[i]`, `i < PrintNum`, still to be looked at. -/
def Print.formats : List (List String) → String × String
  | [] => narrowFormats
  | row :: rest => if strLen (row.getD 0 "") > 15 then wideFormats else Print.formats rest

/-- The method `DownloadSpeedSet.Print`: what it writes to the console, and the
configuration as the call leaves it (`PrintNum` is a package variable that
`Print` overwrites). -/
def Print (cfg : Config) (s : DownloadSpeedSet) : List ConsoleEvent × Config :=
  if NoPrintResult cfg then ([], cfg)
  else if (s.length : Int) ≤ 0 then
    ([ConsoleEvent.println "\n[信息] 完整测速结果 IP 数量为 0，跳过输出结果。"], cfg)
  else
    let dateString := convertToString s
    let PrintNum := if (dateString.length : Int) < cfg.PrintNum then (dateString.length : Int)
      else cfg.PrintNum
    let formats := Print.formats (dateString.take PrintNum.toNat)
    ([ConsoleEvent.printf formats.1 headerRow] ++
      (dateString.take PrintNum.toNat).map (fun row => ConsoleEvent.printf formats.2 row) ++
      (if noOutput cfg then []
       else [ConsoleEvent.printf "\n完整测速结果已写入 %v 文件，可使用记事本/表格软件查看。\n" [cfg.Output]]),
     { cfg with PrintNum := PrintNum })

/-! ## The filters with the slice held in memory -/

/-- The loop of `FilterDelay` with the slice it ranges over made explicit:
`seen` are the elements already visited, as they now stand in the slice; the
result is `data` and the slice as the loop leaves it.  The loop reads each
element into the variable `v` and writes nothing back. -/
def FilterDelay.loopMem (cfg : Config) :
    List CloudflareIPData → List CloudflareIPData → PingDelaySet → PingDelaySet × PingDelaySet
  | seen, [], data => (data, seen)
  | seen, v :: rest, data =>
    if v.Delay > cfg.InputMaxDelay then (data, seen ++ v :: rest)
    else if v.Delay < cfg.InputMinDelay then FilterDelay.loopMem cfg (seen ++ [v]) rest data
    else FilterDelay.loopMem cfg (seen ++ [v]) rest (data ++ [v])

/-- The method `FilterDelay`, returning the result and the receiver slice as
the call leaves it. -/
def FilterDelay.exec (cfg : Config) (s : PingDelaySet) : PingDelaySet × PingDelaySet :=
  if cfg.InputMaxDelay > maxDelay ∨ cfg.InputMinDelay < minDelay then (s, s)
  else if cfg.InputMaxDelay = maxDelay ∧ cfg.InputMinDelay = minDelay then (s, s)
  else FilterDelay.loopMem cfg [] s []

/-- The loop of `FilterLossRate` with the slice it ranges over made explicit.
`getLossRate` runs on the loop variable `v`, a copy of the element: the cache is
written to the copy, which goes to `data`, and the element of the slice stays
as it was. -/
def FilterLossRate.loopMem (cfg : Config) :
    List CloudflareIPData → List CloudflareIPData → PingDelaySet → PingDelaySet × PingDelaySet
  | seen, [], data => (data, seen)
  | seen, v :: rest, data =>
    if GoFloat.gt (getLossRate v).1 cfg.InputMaxLossRate then (data, seen ++ v :: rest)
    else FilterLossRate.loopMem cfg (seen ++ [v]) rest (data ++ [(getLossRate v).2])

/-- The method `FilterLossRate`, returning the result and the receiver slice as
the call leaves it. -/
def FilterLossRate.exec (cfg : Config) (s : PingDelaySet) : PingDelaySet × PingDelaySet :=
  if GoFloat.ge cfg.InputMaxLossRate maxLossRate then (s, s)
  else FilterLossRate.loopMem cfg [] s []

/-- A kept record agrees with the input record on every field but the cached
loss rate. -/
def SameMeasurement (out inp : CloudflareIPData) : Prop :=
  out.IP = inp.IP ∧ out.Sended = inp.Sended ∧ out.Received = inp.Received ∧
    out.Delay = inp.Delay ∧ out.Colo = inp.Colo ∧ out.DownloadSpeed = inp.DownloadSpeed

instance (out inp : CloudflareIPData) : Decidable (SameMeasurement out inp) := by
  unfold SameMeasurement; infer_instance

/-- The place of a float on the extended rational line; NaN, which has no
place, is sent to the bottom. -/
def GoFloat.key : GoFloat → WithBot (WithTop ℚ)
  | GoFloat.nan => ⊥
  | GoFloat.inf true => ⊥
  | GoFloat.inf false => ((⊤ : WithTop ℚ) : WithBot (WithTop ℚ))
  | GoFloat.fin s m => (((GoFloat.signed s m : ℚ) : WithTop ℚ) : WithBot (WithTop ℚ))

/-- The pair (loss rate, delay) by which `Less` compares a record, in the
lexicographic order. -/
def rankKey (r : CloudflareIPData) : (WithBot (WithTop ℚ)) ×ₗ ℤ :=
  toLex (GoFloat.key (getLossRate r).1, r.Delay)

/-- A record with a positive sent count in the `int64` range whose cache does
not hold a NaN. -/
def RateDefined (r : CloudflareIPData) : Prop :=
  0 < r.Sended ∧ InInt64 r.Sended ∧ r.lossRate ≠ GoFloat.nan

instance (r : CloudflareIPData) : Decidable (RateDefined r) := by
  unfold RateDefined; infer_instance

/-! ## Example inputs -/

/-- The address `1.1.1.1`. -/
def addr1111 : IPAddr := ⟨[1, 1, 1, 1], ""⟩

/-- The address `2.2.2.2`. -/
def addr2222 : IPAddr := ⟨[2, 2, 2, 2], ""⟩

/-- The record `{1.1.1.1, sent 10, received 10, delay 20ms, "LAX"}`. -/
def cleanRecord : CloudflareIPData :=
  ⟨addr1111, 10, 10, 20 * millisecond, "LAX", GoFloat.zero, GoFloat.zero⟩

/-- The record `{2.2.2.2, sent 10, received 5, delay 50ms, "LAX"}`. -/
def lossyRecord : CloudflareIPData :=
  ⟨addr2222, 10, 5, 50 * millisecond, "LAX", GoFloat.zero, GoFloat.zero⟩

/-- A record with the given delay in milliseconds and no loss. -/
def delayRecord (ms : Int) : CloudflareIPData :=
  ⟨addr1111, 4, 4, ms * millisecond, "LAX", GoFloat.zero, GoFloat.zero⟩

/-- A configuration with the delay window `[10ms, 50ms]`. -/
def windowConfig : Config :=
  { defaultConfig with InputMinDelay := 10 * millisecond, InputMaxDelay := 50 * millisecond }

/-- A configuration with the loss-rate ceiling `0.25`. -/
def ceilingConfig : Config :=
  { defaultConfig with InputMaxLossRate := GoFloat.fin false (1 / 4) }

/-- Nine records of region `NRT`, told apart by their delay. -/
def nrtNine : List CloudflareIPData :=
  (List.range 9).map (fun i => { delayRecord i with Colo := "NRT" })

/-- Two records of two different regions. -/
def twoRegions : List CloudflareIPData := [cleanRecord, { lossyRecord with Colo := "NRT" }]

/-- A record without loss and with a delay of 100ms. -/
def slowCleanRecord : CloudflareIPData := { cleanRecord with Delay := 100 * millisecond }

/-- Two records in ranking order (loss rate 0, then loss rate 0.5) whose delays
descend (100ms, then 50ms). -/
def rankedPair : PingDelaySet := [slowCleanRecord, lossyRecord]

/-- A record of region `洛杉矶`: its field 0, `1.1.1.1#洛杉矶`, has eleven
characters in seventeen bytes. -/
def cjkRecord : CloudflareIPData := { cleanRecord with Colo := "洛杉矶" }

/-- The configuration whose `Output` is two spaces. -/
def blankConfig : Config := { defaultConfig with Output := "  " }

/-- The file system in which every `os.Create` succeeds. -/
def createSucceeds : String → Bool := fun _ => false

/-! ## Rounding to nearest, ties to even -/

theorem roundHalfEven_floor_le (q : ℚ) : ⌊q⌋ ≤ roundHalfEven q := by
  unfold roundHalfEven; split_ifs <;> omega

theorem roundHalfEven_le_floor_succ (q : ℚ) : roundHalfEven q ≤ ⌊q⌋ + 1 := by
  unfold roundHalfEven; split_ifs <;> omega

theorem roundHalfEven_intCast (n : ℤ) : roundHalfEven (n : ℚ) = n := by
  unfold roundHalfEven; simp

theorem le_roundHalfEven {q : ℚ} {n : ℤ} (h : (n : ℚ) ≤ q) : n ≤ roundHalfEven q :=
  le_trans (Int.le_floor.mpr h) (roundHalfEven_floor_le q)

theorem roundHalfEven_le {q : ℚ} {n : ℤ} (h : q ≤ (n : ℚ)) : roundHalfEven q ≤ n := by
  rcases lt_or_eq_of_le h with h | h
  · have hf : ⌊q⌋ < n := Int.floor_lt.mpr h
    have := roundHalfEven_le_floor_succ q
    omega
  · rw [h, roundHalfEven_intCast]

theorem roundHalfEven_mono {q₁ q₂ : ℚ} (h : q₁ ≤ q₂) : roundHalfEven q₁ ≤ roundHalfEven q₂ := by
  have hf : ⌊q₁⌋ ≤ ⌊q₂⌋ := Int.floor_mono h
  rcases lt_or_eq_of_le hf with hlt | heq
  · have h1 := roundHalfEven_le_floor_succ q₁
    have h2 := roundHalfEven_floor_le q₂
    omega
  · unfold roundHalfEven
    rw [← heq]
    have hfr : q₁ - ⌊q₁⌋ ≤ q₂ - ⌊q₁⌋ := by linarith
    split_ifs <;> first | omega | (exfalso; linarith)

theorem ulp_pos (fmt : FloatFormat) (q : ℚ) : 0 < ulp fmt q := by
  unfold ulp; positivity

theorem le_roundMag_of_mul_ulp_le (fmt : FloatFormat) {q : ℚ} {n : ℤ}
    (h : (n : ℚ) * ulp fmt q ≤ q) : (n : ℚ) * ulp fmt q ≤ roundMag fmt q := by
  have hu := ulp_pos fmt q
  unfold roundMag
  apply mul_le_mul_of_nonneg_right _ hu.le
  exact_mod_cast le_roundHalfEven ((le_div_iff₀ hu).mpr h)

theorem roundMag_le_of_le_mul_ulp (fmt : FloatFormat) {q : ℚ} {n : ℤ}
    (h : q ≤ (n : ℚ) * ulp fmt q) : roundMag fmt q ≤ (n : ℚ) * ulp fmt q := by
  have hu := ulp_pos fmt q
  unfold roundMag
  apply mul_le_mul_of_nonneg_right _ hu.le
  exact_mod_cast roundHalfEven_le ((div_le_iff₀ hu).mpr h)

theorem roundMag_eq_self_of_mul_ulp (fmt : FloatFormat) {q : ℚ} {n : ℤ}
    (h : q = (n : ℚ) * ulp fmt q) : roundMag fmt q = q := by
  have h1 := roundMag_le_of_le_mul_ulp fmt h.le
  have h2 := le_roundMag_of_mul_ulp_le fmt h.ge
  rw [← h] at h1 h2
  exact le_antisymm h1 h2

theorem roundMag_zero (fmt : FloatFormat) : roundMag fmt 0 = 0 :=
  roundMag_eq_self_of_mul_ulp fmt (n := 0) (by simp)

theorem roundMag_nonneg (fmt : FloatFormat) {q : ℚ} (h : 0 ≤ q) : 0 ≤ roundMag fmt q := by
  have := le_roundMag_of_mul_ulp_le fmt (q := q) (n := 0) (by simpa using h)
  simpa using this

theorem binade_mono (fmt : FloatFormat) {q₁ q₂ : ℚ} (h₀ : 0 < q₁) (h : q₁ ≤ q₂) :
    binade fmt q₁ ≤ binade fmt q₂ :=
  max_le_max (Int.log_mono_right h₀ h) le_rfl

/-- A power of two at or above the quantum of `q` is a multiple of that quantum. -/
theorem two_zpow_eq_mul_ulp (fmt : FloatFormat) (q : ℚ) {k : ℤ}
    (hk : binade fmt q - (fmt.prec - 1) ≤ k) :
    (2 : ℚ) ^ k = ((2 ^ (k - (binade fmt q - (fmt.prec - 1))).toNat : ℤ) : ℚ) * ulp fmt q := by
  unfold ulp
  set j := binade fmt q - (fmt.prec - 1) with hj
  have : k = ((k - j).toNat : ℤ) + j := by omega
  nth_rewrite 1 [this]
  rw [zpow_add₀ (by norm_num), zpow_natCast]
  push_cast
  rfl

theorem roundMag_le_two_zpow (fmt : FloatFormat) {q : ℚ} {k : ℤ}
    (hk : binade fmt q - (fmt.prec - 1) ≤ k) (h : q ≤ 2 ^ k) : roundMag fmt q ≤ 2 ^ k := by
  rw [two_zpow_eq_mul_ulp fmt q hk] at h ⊢
  exact roundMag_le_of_le_mul_ulp fmt h

theorem two_zpow_le_roundMag (fmt : FloatFormat) {q : ℚ} {k : ℤ}
    (hk : binade fmt q - (fmt.prec - 1) ≤ k) (h : 2 ^ k ≤ q) : 2 ^ k ≤ roundMag fmt q := by
  rw [two_zpow_eq_mul_ulp fmt q hk] at h ⊢
  exact le_roundMag_of_mul_ulp_le fmt h

theorem roundMag_mono (fmt : FloatFormat) (hp : 1 ≤ fmt.prec) {q₁ q₂ : ℚ} (h₀ : 0 ≤ q₁)
    (h : q₁ ≤ q₂) : roundMag fmt q₁ ≤ roundMag fmt q₂ := by
  rcases eq_or_lt_of_le h₀ with h0 | h0
  · rw [← h0, roundMag_zero]; exact roundMag_nonneg fmt (h₀.trans h)
  have hq2 : 0 < q₂ := lt_of_lt_of_le h0 h
  rcases lt_or_eq_of_le (binade_mono fmt h0 h) with hlt | heq
  · -- different binades: a power of two separates the two roundings
    have hp' : (1 : ℤ) ≤ fmt.prec := by exact_mod_cast hp
    have he2 : binade fmt q₂ = Int.log 2 q₂ := by
      unfold binade at hlt ⊢
      rcases le_total (Int.log 2 q₂) fmt.emin with hle | hle
      · rw [max_eq_right hle] at hlt
        have := le_max_right (Int.log 2 q₁) fmt.emin
        omega
      · exact max_eq_left hle
    have h2 : (2 : ℚ) ^ binade fmt q₂ ≤ roundMag fmt q₂ := by
      apply two_zpow_le_roundMag fmt (by omega)
      rw [he2]; exact_mod_cast Int.zpow_log_le_self (b := 2) (by norm_num) hq2
    have h1 : roundMag fmt q₁ ≤ (2 : ℚ) ^ (binade fmt q₁ + 1) := by
      apply roundMag_le_two_zpow fmt (by omega)
      have := Int.lt_zpow_succ_log_self (b := 2) (by norm_num) q₁
      have hle : (2 : ℚ) ^ (Int.log 2 q₁ + 1) ≤ 2 ^ (binade fmt q₁ + 1) :=
        zpow_le_zpow_right₀ (by norm_num)
          (by unfold binade; have := le_max_left (Int.log 2 q₁) fmt.emin; omega)
      push_cast at this
      exact (this.trans_le hle).le
    have h12 : (2 : ℚ) ^ (binade fmt q₁ + 1) ≤ 2 ^ binade fmt q₂ :=
      zpow_le_zpow_right₀ (by norm_num) (by omega)
    exact h1.trans (h12.trans h2)
  · -- same binade: same quantum
    have hu : ulp fmt q₁ = ulp fmt q₂ := by unfold ulp; rw [heq]
    unfold roundMag
    rw [hu]
    apply mul_le_mul_of_nonneg_right _ (ulp_pos fmt q₂).le
    exact_mod_cast roundHalfEven_mono (div_le_div_of_nonneg_right h (ulp_pos fmt q₂).le)

theorem roundMag_two_zpow (fmt : FloatFormat) (hp : 1 ≤ fmt.prec) {k : ℤ} (hk : fmt.emin ≤ k) :
    roundMag fmt (2 ^ k) = 2 ^ k := by
  have hp' : (1 : ℤ) ≤ fmt.prec := by exact_mod_cast hp
  have hb : binade fmt ((2 : ℚ) ^ k) = k := by
    unfold binade
    have := Int.log_zpow (R := ℚ) (b := 2) (by norm_num) k
    push_cast at this
    rw [this]; exact max_eq_left hk
  have hk' : binade fmt ((2 : ℚ) ^ k) - (fmt.prec - 1) ≤ k := by omega
  exact le_antisymm (roundMag_le_two_zpow fmt hk' le_rfl) (two_zpow_le_roundMag fmt hk' le_rfl)

theorem roundMag_one (fmt : FloatFormat) (hp : 1 ≤ fmt.prec) (he : fmt.emin ≤ 0) :
    roundMag fmt 1 = 1 := by
  simpa using roundMag_two_zpow fmt hp (k := 0) he

theorem abs_roundHalfEven_sub_le (q : ℚ) : |(roundHalfEven q : ℚ) - q| ≤ 1 / 2 := by
  have h0 : (0 : ℚ) ≤ q - ⌊q⌋ := by linarith [Int.floor_le q]
  have h1 : q - ⌊q⌋ < 1 := by linarith [Int.lt_floor_add_one q]
  unfold roundHalfEven
  rw [abs_le]
  split_ifs with ha hb hc
  · constructor <;> linarith
  · push_cast; constructor <;> linarith
  · have : q - ⌊q⌋ = 1 / 2 := le_antisymm (not_lt.mp hb) (not_lt.mp ha)
    constructor <;> linarith
  · have : q - ⌊q⌋ = 1 / 2 := le_antisymm (not_lt.mp hb) (not_lt.mp ha)
    push_cast; constructor <;> linarith

/-- Rounding moves a magnitude by at most half a quantum. -/
theorem abs_roundMag_sub_le (fmt : FloatFormat) (q : ℚ) :
    |roundMag fmt q - q| ≤ ulp fmt q / 2 := by
  have hu := ulp_pos fmt q
  have h := abs_roundHalfEven_sub_le (q / ulp fmt q)
  have heq : roundMag fmt q - q =
      ((roundHalfEven (q / ulp fmt q) : ℚ) - q / ulp fmt q) * ulp fmt q := by
    unfold roundMag
    field_simp
  rw [heq, abs_mul, abs_of_pos hu]
  calc |(roundHalfEven (q / ulp fmt q) : ℚ) - q / ulp fmt q| * ulp fmt q
      ≤ 1 / 2 * ulp fmt q := mul_le_mul_of_nonneg_right h hu.le
    _ = ulp fmt q / 2 := by ring

/-- In the normal range the quantum is at most `2 ^ (1 - prec)` times the
magnitude. -/
theorem ulp_le_mul_of_normal (fmt : FloatFormat) {q : ℚ} (hq : 0 < q)
    (hn : fmt.emin ≤ Int.log 2 q) : ulp fmt q ≤ q * 2 ^ (1 - (fmt.prec : ℤ)) := by
  unfold ulp binade
  rw [max_eq_left hn]
  have h1 : (2 : ℚ) ^ Int.log 2 q ≤ q := by
    exact_mod_cast Int.zpow_log_le_self (b := 2) (by norm_num) hq
  have h2 : (2 : ℚ) ^ (Int.log 2 q - ((fmt.prec : ℤ) - 1)) =
      2 ^ Int.log 2 q * 2 ^ (1 - (fmt.prec : ℤ)) := by
    rw [← zpow_add₀ (by norm_num)]
    congr 1
    ring
  rw [h2]
  exact mul_le_mul_of_nonneg_right h1 (by positivity)

/-- A magnitude of at most one has a quantum of at most `2 ^ (1 - prec)`. -/
theorem ulp_le_of_le_one (fmt : FloatFormat) (he : fmt.emin ≤ 0) {q : ℚ} (hq0 : 0 ≤ q)
    (hq : q ≤ 1) :
    ulp fmt q ≤ 2 ^ (1 - (fmt.prec : ℤ)) := by
  unfold ulp
  apply zpow_le_zpow_right₀ (by norm_num)
  have : binade fmt q ≤ 0 := by
    unfold binade
    apply max_le _ he
    rcases eq_or_lt_of_le hq0 with h | h
    · rw [← h]; simp
    · have := Int.log_mono_right (b := 2) h hq
      simpa using this
  omega

/-! ## The order on floats -/

theorem GoFloat.le_fin_fin (s₁ s₂ : Bool) (m₁ m₂ : ℚ) :
    GoFloat.le (GoFloat.fin s₁ m₁) (GoFloat.fin s₂ m₂) =
      decide (GoFloat.signed s₁ m₁ ≤ GoFloat.signed s₂ m₂) := by
  simp only [GoFloat.le, GoFloat.lt, GoFloat.eq]
  rw [Bool.eq_iff_iff]
  simp only [Bool.or_eq_true, decide_eq_true_eq]
  exact le_iff_lt_or_eq.symm

theorem GoFloat.gt_eq_not_le {a b : GoFloat} (ha : a ≠ GoFloat.nan) (hb : b ≠ GoFloat.nan) :
    GoFloat.gt a b = !GoFloat.le a b := by
  cases a with
  | nan => exact absurd rfl ha
  | inf n₁ =>
    cases b with
    | nan => exact absurd rfl hb
    | inf n₂ => cases n₁ <;> cases n₂ <;> rfl
    | fin s₂ m₂ => cases n₁ <;> rfl
  | fin s₁ m₁ =>
    cases b with
    | nan => exact absurd rfl hb
    | inf n₂ => cases n₂ <;> rfl
    | fin s₂ m₂ =>
      rw [GoFloat.le_fin_fin]
      simp only [GoFloat.gt, GoFloat.lt]
      rw [Bool.eq_iff_iff]
      simp

theorem GoFloat.le_trans {a b c : GoFloat} (h₁ : GoFloat.le a b = true)
    (h₂ : GoFloat.le b c = true) : GoFloat.le a c = true := by
  cases a with
  | nan => simp [GoFloat.le, GoFloat.lt, GoFloat.eq] at h₁
  | inf n₁ =>
    cases b with
    | nan => simp [GoFloat.le, GoFloat.lt, GoFloat.eq] at h₁
    | inf n₂ =>
      cases c with
      | nan => simp [GoFloat.le, GoFloat.lt, GoFloat.eq] at h₂
      | inf n₃ =>
        revert h₁ h₂
        cases n₁ <;> cases n₂ <;> cases n₃ <;> simp [GoFloat.le, GoFloat.lt, GoFloat.eq]
      | fin s₃ m₃ =>
        revert h₁ h₂; cases n₁ <;> cases n₂ <;> simp [GoFloat.le, GoFloat.lt, GoFloat.eq]
    | fin s₂ m₂ =>
      cases c with
      | nan => simp [GoFloat.le, GoFloat.lt, GoFloat.eq] at h₂
      | inf n₃ =>
        revert h₁ h₂; cases n₁ <;> cases n₃ <;> simp [GoFloat.le, GoFloat.lt, GoFloat.eq]
      | fin s₃ m₃ =>
        revert h₁; cases n₁ <;> simp [GoFloat.le, GoFloat.lt, GoFloat.eq]
  | fin s₁ m₁ =>
    cases b with
    | nan => simp [GoFloat.le, GoFloat.lt, GoFloat.eq] at h₁
    | inf n₂ =>
      cases c with
      | nan => simp [GoFloat.le, GoFloat.lt, GoFloat.eq] at h₂
      | inf n₃ =>
        revert h₁ h₂; cases n₂ <;> cases n₃ <;> simp [GoFloat.le, GoFloat.lt, GoFloat.eq]
      | fin s₃ m₃ =>
        revert h₁ h₂; cases n₂ <;> simp [GoFloat.le, GoFloat.lt, GoFloat.eq]
    | fin s₂ m₂ =>
      cases c with
      | nan => simp [GoFloat.le, GoFloat.lt, GoFloat.eq] at h₂
      | inf n₃ =>
        revert h₂; cases n₃ <;> simp [GoFloat.le, GoFloat.lt, GoFloat.eq]
      | fin s₃ m₃ =>
        rw [GoFloat.le_fin_fin, decide_eq_true_eq] at h₁ h₂ ⊢
        exact h₁.trans h₂

/-! ## Theorems: `FilterDelay` -/

theorem FilterDelay_loop_append (cfg : Config) (l : List CloudflareIPData) (data : PingDelaySet) :
    FilterDelay.loop cfg l data = data ++ FilterDelay.loop cfg l [] := by
  induction l generalizing data with
  | nil => simp [FilterDelay.loop]
  | cons v rest ih =>
    simp only [FilterDelay.loop]
    split_ifs
    · simp
    · exact ih data
    · rw [ih (data ++ [v]), ih ([] ++ [v])]; simp

theorem FilterDelay.loop_sorted (cfg : Config) (l : List CloudflareIPData)
    (hs : l.Pairwise (fun a b => a.Delay ≤ b.Delay)) :
    FilterDelay.loop cfg l [] = l.filter (inWindow cfg) := by
  induction l with
  | nil => simp [FilterDelay.loop]
  | cons v rest ih =>
    rw [List.pairwise_cons] at hs
    simp only [FilterDelay.loop]
    split_ifs with h1 h2
    · symm
      rw [List.filter_eq_nil_iff]
      intro a ha
      simp only [inWindow, decide_eq_true_eq, not_and, not_le]
      intro _
      rcases List.mem_cons.mp ha with rfl | ha
      · exact h1
      · exact lt_of_lt_of_le h1 (hs.1 a ha)
    · rw [ih hs.2, List.filter_cons_of_neg]
      simp only [inWindow, decide_eq_true_eq, not_and, not_le]
      intro h; omega
    · rw [FilterDelay_loop_append, ih hs.2, List.filter_cons_of_pos]
      · simp
      · simp only [inWindow, decide_eq_true_eq]
        constructor <;> omega

/-- C1. On a slice sorted ascending by `Delay`, under an active window
(`0 ≤ InputMinDelay`, `InputMaxDelay ≤ 9999ms`, not both at their defaults),
`FilterDelay` returns exactly the records of the slice whose delay lies in
`[InputMinDelay, InputMaxDelay]`, in input order. -/
theorem FilterDelay_sorted (cfg : Config) (s : PingDelaySet)
    (hs : s.Pairwise (fun a b => a.Delay ≤ b.Delay))
    (hmin : minDelay ≤ cfg.InputMinDelay) (hmax : cfg.InputMaxDelay ≤ maxDelay)
    (hne : ¬ (cfg.InputMinDelay = minDelay ∧ cfg.InputMaxDelay = maxDelay)) :
    FilterDelay cfg s =
      s.filter (fun r => decide (cfg.InputMinDelay ≤ r.Delay ∧ r.Delay ≤ cfg.InputMaxDelay)) := by
  unfold FilterDelay
  rw [if_neg (by omega), if_neg (by tauto)]
  exact FilterDelay.loop_sorted cfg s hs

/-- C2. `FilterDelay` returns its input unchanged, sorted or not, when
`InputMaxDelay > 9999ms`, or `InputMinDelay < 0`, or the window is the default
one (`InputMinDelay = 0` and `InputMaxDelay = 9999ms`). -/
theorem FilterDelay_disabled (cfg : Config) (s : PingDelaySet)
    (h : cfg.InputMaxDelay > 9999 * 1000000 ∨ cfg.InputMinDelay < 0 ∨
      (cfg.InputMinDelay = 0 ∧ cfg.InputMaxDelay = 9999 * 1000000)) :
    FilterDelay cfg s = s := by
  unfold FilterDelay maxDelay minDelay millisecond
  rcases h with h | h | h
  · rw [if_pos (Or.inl (by omega))]
  · rw [if_pos (Or.inr (by omega))]
  · split_ifs <;> first | rfl | (exfalso; omega)

theorem FilterDelay_sorted_witness :
    FilterDelay windowConfig [delayRecord 5, delayRecord 20, delayRecord 30, delayRecord 80] =
      [delayRecord 20, delayRecord 30] :=
  (FilterDelay_sorted windowConfig
    [delayRecord 5, delayRecord 20, delayRecord 30, delayRecord 80]
    (by decide) (by decide) (by decide) (by decide)).trans (by decide)

theorem FilterDelay_disabled_witness :
    FilterDelay defaultConfig [delayRecord 80, delayRecord 5] = [delayRecord 80, delayRecord 5] :=
  FilterDelay_disabled defaultConfig _ (by decide)

/-! ## Theorems: `getLossRate` -/

theorem wrapInt64_of_inInt64 {x : Int} (h : InInt64 x) : wrapInt64 x = x := by
  unfold InInt64 at h
  unfold wrapInt64
  omega

theorem roundMag_binary32_intCast_lt {n : Int} (h : n < 2 ^ 63) :
    roundMag binary32 |(n : ℚ)| < 2 ^ (binary32.emax + 1) ∨ n < 0 := by
  rcases lt_or_le n 0 with hn | hn
  · exact Or.inr hn
  left
  have hq : |(n : ℚ)| = n := abs_of_nonneg (by exact_mod_cast hn)
  have hle : (n : ℚ) ≤ 2 ^ (63 : ℤ) := by
    have : (n : ℚ) < ((2 ^ 63 : ℤ) : ℚ) := by exact_mod_cast h
    norm_num at this ⊢
    exact this.le
  have h1 := roundMag_mono binary32 (by decide) (by exact_mod_cast hn) hle
  rw [roundMag_two_zpow binary32 (by decide) (by decide)] at h1
  rw [hq]
  refine lt_of_le_of_lt h1 ?_
  exact zpow_lt_zpow_right₀ (by norm_num) (by decide)

theorem GoFloat.ofInt_binary32_of_nonneg {n : Int} (h0 : 0 ≤ n) (h : n < 2 ^ 63) :
    GoFloat.ofInt binary32 n = GoFloat.fin false (roundMag binary32 n) := by
  have hq : |(n : ℚ)| = n := abs_of_nonneg (by exact_mod_cast h0)
  rcases roundMag_binary32_intCast_lt h with h1 | h1
  · unfold GoFloat.ofInt GoFloat.ofMag
    rw [if_pos h1, hq]
    simp [not_lt.mpr h0]
  · omega

/-- The value `getLossRate` computes for a record with an empty cache. -/
theorem getLossRate_fresh (cf : CloudflareIPData)
    (hc : GoFloat.eq cf.lossRate GoFloat.zero = true) :
    getLossRate cf =
      (GoFloat.div binary32 (GoFloat.ofInt binary32 (wrapInt64 (cf.Sended - cf.Received)))
          (GoFloat.ofInt binary32 cf.Sended),
        { cf with lossRate := (GoFloat.div binary32
            (GoFloat.ofInt binary32 (wrapInt64 (cf.Sended - cf.Received)))
            (GoFloat.ofInt binary32 cf.Sended)) }) := by
  unfold getLossRate
  rw [if_pos hc]

/-- For well-formed counters the loss rate is the finite non-negative float
obtained by rounding the quotient of the two rounded counters, and it is at
most one. -/
theorem getLossRate_fresh_fin (cf : CloudflareIPData)
    (hc : GoFloat.eq cf.lossRate GoFloat.zero = true)
    (hS : 0 < cf.Sended) (hR : 0 ≤ cf.Received) (hRS : cf.Received ≤ cf.Sended)
    (h64 : InInt64 cf.Sended) :
    (getLossRate cf).1 = GoFloat.fin false (roundMag binary32
        (roundMag binary32 ((cf.Sended - cf.Received : Int) : ℚ) /
          roundMag binary32 (cf.Sended : ℚ))) ∧
      0 ≤ roundMag binary32 (roundMag binary32 ((cf.Sended - cf.Received : Int) : ℚ) /
          roundMag binary32 (cf.Sended : ℚ)) ∧
      roundMag binary32 (roundMag binary32 ((cf.Sended - cf.Received : Int) : ℚ) /
          roundMag binary32 (cf.Sended : ℚ)) ≤ 1 := by
  have h64' := h64
  unfold InInt64 at h64'
  have hw : wrapInt64 (cf.Sended - cf.Received) = cf.Sended - cf.Received :=
    wrapInt64_of_inInt64 (by unfold InInt64; omega)
  set a := roundMag binary32 ((cf.Sended - cf.Received : Int) : ℚ) with ha
  set b := roundMag binary32 (cf.Sended : ℚ) with hb
  have hlost0 : (0 : ℚ) ≤ ((cf.Sended - cf.Received : Int) : ℚ) := by
    exact_mod_cast (by omega : 0 ≤ cf.Sended - cf.Received)
  have hlostS : ((cf.Sended - cf.Received : Int) : ℚ) ≤ (cf.Sended : ℚ) := by
    exact_mod_cast (by omega : cf.Sended - cf.Received ≤ cf.Sended)
  have ha0 : 0 ≤ a := roundMag_nonneg binary32 hlost0
  have hab : a ≤ b := roundMag_mono binary32 (by decide) hlost0 hlostS
  have hb1 : 1 ≤ b := by
    have h1 : (1 : ℚ) ≤ (cf.Sended : ℚ) := by exact_mod_cast (by omega : 1 ≤ cf.Sended)
    have := roundMag_mono binary32 (by decide) zero_le_one h1
    rwa [roundMag_one binary32 (by decide) (by decide)] at this
  have hbpos : 0 < b := lt_of_lt_of_le zero_lt_one hb1
  have hq0 : 0 ≤ a / b := div_nonneg ha0 hbpos.le
  have hq1 : a / b ≤ 1 := (div_le_one hbpos).mpr hab
  have hr0 : 0 ≤ roundMag binary32 (a / b) := roundMag_nonneg binary32 hq0
  have hr1 : roundMag binary32 (a / b) ≤ 1 := by
    have := roundMag_mono binary32 (by decide) hq0 hq1
    rwa [roundMag_one binary32 (by decide) (by decide)] at this
  refine ⟨?_, hr0, hr1⟩
  rw [getLossRate_fresh cf hc, hw, GoFloat.ofInt_binary32_of_nonneg (by omega) (by omega),
    GoFloat.ofInt_binary32_of_nonneg hS.le h64'.2]
  have hlt : roundMag binary32 (a / b) < 2 ^ (binary32.emax + 1) :=
    lt_of_le_of_lt hr1 (one_lt_zpow₀ (by norm_num) (by decide))
  show GoFloat.div binary32 (GoFloat.fin false a) (GoFloat.fin false b) = _
  simp only [GoFloat.div, GoFloat.ofMag, if_neg hbpos.ne', if_pos hlt, Bool.xor_false]

theorem roundMag_intCast_of_lt (fmt : FloatFormat) (he : fmt.emin ≤ (fmt.prec : ℤ) - 1) {n : ℤ}
    (h0 : 0 < n) (h : (n : ℚ) < 2 ^ (fmt.prec : ℤ)) : roundMag fmt (n : ℚ) = n := by
  have hn : (0 : ℚ) < n := by exact_mod_cast h0
  have hlog : Int.log 2 (n : ℚ) < fmt.prec :=
    (Int.lt_zpow_iff_log_lt (b := 2) (by norm_num) hn).mp (by exact_mod_cast h)
  have hb : binade fmt (n : ℚ) - ((fmt.prec : ℤ) - 1) ≤ 0 := by
    unfold binade
    rcases le_total (Int.log 2 (n : ℚ)) fmt.emin with hle | hle
    · rw [max_eq_right hle]; omega
    · rw [max_eq_left hle]; omega
  have h1 := two_zpow_eq_mul_ulp fmt (n : ℚ) hb
  rw [zpow_zero] at h1
  apply roundMag_eq_self_of_mul_ulp fmt
    (n := n * 2 ^ (0 - (binade fmt (n : ℚ) - ((fmt.prec : ℤ) - 1))).toNat)
  push_cast at h1 ⊢
  rw [mul_assoc, ← h1, mul_one]

theorem roundMag_binary32_intCast {n : ℤ} (h0 : 0 ≤ n) (h : n ≤ 2 ^ 24) :
    roundMag binary32 (n : ℚ) = n := by
  rcases eq_or_lt_of_le h0 with h0 | h0
  · rw [← h0]; simpa using roundMag_zero binary32
  rcases eq_or_lt_of_le h with h | h
  · have := roundMag_two_zpow binary32 (by decide) (k := 24) (by decide)
    rw [h]; norm_num at this ⊢; exact this
  · apply roundMag_intCast_of_lt binary32 (by decide) h0
    have : (n : ℚ) < ((2 ^ 24 : ℤ) : ℚ) := by exact_mod_cast h
    show (n : ℚ) < 2 ^ ((24 : ℕ) : ℤ)
    norm_num at this ⊢
    exact this

theorem roundMag_eq_self_of_dyadic (fmt : FloatFormat) (m k : ℤ) (hm0 : 0 < m)
    (hm : (m : ℚ) < 2 ^ (fmt.prec : ℤ)) (hk : fmt.emin - ((fmt.prec : ℤ) - 1) ≤ k) :
    roundMag fmt ((m : ℚ) * 2 ^ k) = (m : ℚ) * 2 ^ k := by
  have h2k : (0 : ℚ) < 2 ^ k := by positivity
  have hq : (0 : ℚ) < (m : ℚ) * 2 ^ k := mul_pos (by exact_mod_cast hm0) h2k
  have hlt : (m : ℚ) * 2 ^ k < 2 ^ ((fmt.prec : ℤ) + k) := by
    rw [zpow_add₀ (by norm_num)]
    exact mul_lt_mul_of_pos_right hm h2k
  have hlog : Int.log 2 ((m : ℚ) * 2 ^ k) < (fmt.prec : ℤ) + k :=
    (Int.lt_zpow_iff_log_lt (b := 2) (by norm_num) hq).mp (by exact_mod_cast hlt)
  have hb : binade fmt ((m : ℚ) * 2 ^ k) - ((fmt.prec : ℤ) - 1) ≤ k := by
    unfold binade
    rcases le_total (Int.log 2 ((m : ℚ) * 2 ^ k)) fmt.emin with hle | hle
    · rw [max_eq_right hle]; omega
    · rw [max_eq_left hle]; omega
  have h1 := two_zpow_eq_mul_ulp fmt ((m : ℚ) * 2 ^ k) hb
  apply roundMag_eq_self_of_mul_ulp fmt
    (n := m * 2 ^ (k - (binade fmt ((m : ℚ) * 2 ^ k) - ((fmt.prec : ℤ) - 1))).toNat)
  push_cast at h1 ⊢
  rw [mul_assoc (m : ℚ), ← h1]

/-- With a sent count of at most `2 ^ 24` both conversions to `float32` are
exact, and the loss rate is the `float32` nearest to the exact quotient. -/
theorem getLossRate_fresh_small (cf : CloudflareIPData)
    (hc : GoFloat.eq cf.lossRate GoFloat.zero = true)
    (hS : 0 < cf.Sended) (hR : 0 ≤ cf.Received) (hRS : cf.Received ≤ cf.Sended)
    (h24 : cf.Sended ≤ 2 ^ 24) :
    (getLossRate cf).1 = GoFloat.fin false
      (roundMag binary32 (((cf.Sended - cf.Received : Int) : ℚ) / (cf.Sended : ℚ))) := by
  have h := (getLossRate_fresh_fin cf hc hS hR hRS (by unfold InInt64; omega)).1
  rwa [roundMag_binary32_intCast (by omega) (by omega), roundMag_binary32_intCast hS.le h24] at h

/-- The quotient of two magnitudes known up to the relative error `2 ^ (-24)`. -/
theorem quotient_error_bound {a b L S : ℚ} (hL : 0 ≤ L) (hLS : L ≤ S) (hS : 1 ≤ S)
    (ha : |a - L| ≤ L * 2 ^ (-24 : ℤ)) (hb : |b - S| ≤ S * 2 ^ (-24 : ℤ)) :
    |a / b - L / S| ≤ 3 * 2 ^ (-24 : ℤ) := by
  have hu : (2 : ℚ) ^ (-24 : ℤ) = 1 / 16777216 := by norm_num
  rw [hu] at ha hb ⊢
  rw [abs_le] at ha hb
  have hSpos : (0 : ℚ) < S := by linarith
  have hbpos : 0 < b := by nlinarith
  have hr0 : 0 ≤ L / S := div_nonneg hL hSpos.le
  have hr1 : L / S ≤ 1 := (div_le_one hSpos).mpr hLS
  have hLr : L = L / S * S := by field_simp
  rw [abs_le]
  constructor
  · rw [le_sub_iff_add_le, le_div_iff₀ hbpos]
    nlinarith [mul_nonneg hr0 hSpos.le, mul_le_mul_of_nonneg_right hr1 hSpos.le]
  · rw [sub_le_iff_le_add, div_le_iff₀ hbpos]
    nlinarith [mul_nonneg hr0 hSpos.le, mul_le_mul_of_nonneg_right hr1 hSpos.le]

/-- Conversion of a non-negative integer to `float32` has relative error at
most `2 ^ (-24)`. -/
theorem abs_roundMag_binary32_intCast_sub_le {n : ℤ} (hn : 0 ≤ n) :
    |roundMag binary32 (n : ℚ) - n| ≤ (n : ℚ) * 2 ^ (-24 : ℤ) := by
  rcases eq_or_lt_of_le hn with h | h
  · rw [← h]; simp [roundMag_zero]
  have hq : (0 : ℚ) < n := by exact_mod_cast h
  have h1 : (1 : ℚ) ≤ n := by exact_mod_cast (by omega : 1 ≤ n)
  have hlog : binary32.emin ≤ Int.log 2 (n : ℚ) := by
    have := Int.log_mono_right (b := 2) (zero_lt_one' ℚ) h1
    rw [Int.log_one_right] at this
    exact le_trans (by decide) this
  have h2 := abs_roundMag_sub_le binary32 (n : ℚ)
  have h3 := ulp_le_mul_of_normal binary32 hq hlog
  have h4 : (2 : ℚ) ^ (1 - (binary32.prec : ℤ)) = 2 * 2 ^ (-24 : ℤ) := by
    norm_num [binary32]
  rw [h4] at h3
  linarith

/-- The rounded quotient of the two rounded counters is within `2 ^ (-22)` of
the exact quotient. -/
theorem lossRate_accuracy {sended received : Int} (hS : 0 < sended) (hR : 0 ≤ received)
    (hRS : received ≤ sended) :
    |roundMag binary32 (roundMag binary32 ((sended - received : Int) : ℚ) /
        roundMag binary32 (sended : ℚ)) -
      ((sended - received : Int) : ℚ) / (sended : ℚ)| ≤ 2 ^ (-22 : ℤ) := by
  have hL0 : (0 : ℚ) ≤ ((sended - received : Int) : ℚ) := by
    exact_mod_cast (by omega : 0 ≤ sended - received)
  have hLS : ((sended - received : Int) : ℚ) ≤ (sended : ℚ) := by
    exact_mod_cast (by omega : sended - received ≤ sended)
  have hS1 : (1 : ℚ) ≤ (sended : ℚ) := by exact_mod_cast (by omega : 1 ≤ sended)
  have ha := abs_roundMag_binary32_intCast_sub_le (n := sended - received) (by omega)
  have hb := abs_roundMag_binary32_intCast_sub_le (n := sended) hS.le
  set L : ℚ := ((sended - received : Int) : ℚ) with hLdef
  set S : ℚ := (sended : ℚ) with hSdef
  have hq := quotient_error_bound hL0 hLS hS1 ha hb
  set a := roundMag binary32 L with hadef
  set b := roundMag binary32 S with hbdef
  have ha0 : 0 ≤ a := roundMag_nonneg binary32 hL0
  have hab : a ≤ b := roundMag_mono binary32 (by decide) hL0 hLS
  have hb1 : 1 ≤ b := by
    have := roundMag_mono binary32 (by decide) zero_le_one hS1
    rwa [roundMag_one binary32 (by decide) (by decide)] at this
  have hbpos : 0 < b := lt_of_lt_of_le zero_lt_one hb1
  have hq0 : 0 ≤ a / b := div_nonneg ha0 hbpos.le
  have hq1 : a / b ≤ 1 := (div_le_one hbpos).mpr hab
  have hr := abs_roundMag_sub_le binary32 (a / b)
  have hulp := ulp_le_of_le_one binary32 (by decide) hq0 hq1
  have h4 : (2 : ℚ) ^ (1 - (binary32.prec : ℤ)) = 2 * 2 ^ (-24 : ℤ) := by
    norm_num [binary32]
  rw [h4] at hulp
  have h22 : (2 : ℚ) ^ (-22 : ℤ) = 4 * 2 ^ (-24 : ℤ) := by norm_num
  rw [h22]
  calc |roundMag binary32 (a / b) - L / S|
      = |(roundMag binary32 (a / b) - a / b) + (a / b - L / S)| := by ring_nf
    _ ≤ |roundMag binary32 (a / b) - a / b| + |a / b - L / S| := abs_add _ _
    _ ≤ 4 * 2 ^ (-24 : ℤ) := by linarith

/-- C5. For a record whose cached loss rate is zero, with `Sended > 0` and
`0 ≤ Received ≤ Sended`, `getLossRate` returns the `float32` quotient
`float32(Sended - Received) / float32(Sended)`.  This value is a finite float
in the closed interval `[0, 1]`, within `2 ^ (-22)` of the exact quotient
`(Sended - Received) / Sended`; and when `Sended ≤ 2 ^ 24` (both conversions
are then exact) it is the `float32` nearest to the exact quotient. -/
theorem getLossRate_value_range (cf : CloudflareIPData)
    (hc : GoFloat.eq cf.lossRate GoFloat.zero = true)
    (hS : 0 < cf.Sended) (hR : 0 ≤ cf.Received) (hRS : cf.Received ≤ cf.Sended)
    (h64 : InInt64 cf.Sended) :
    (getLossRate cf).1 = GoFloat.div binary32 (GoFloat.ofInt binary32 (cf.Sended - cf.Received))
        (GoFloat.ofInt binary32 cf.Sended) ∧
      (∃ m : ℚ, (getLossRate cf).1 = GoFloat.fin false m ∧ 0 ≤ m ∧ m ≤ 1 ∧
        |m - ((cf.Sended - cf.Received : Int) : ℚ) / (cf.Sended : ℚ)| ≤ 2 ^ (-22 : ℤ)) ∧
      GoFloat.le GoFloat.zero (getLossRate cf).1 = true ∧
      GoFloat.le (getLossRate cf).1 GoFloat.one = true ∧
      (cf.Sended ≤ 2 ^ 24 → (getLossRate cf).1 = GoFloat.fin false
        (roundMag binary32 (((cf.Sended - cf.Received : Int) : ℚ) / (cf.Sended : ℚ)))) := by
  obtain ⟨hv, h0, h1⟩ := getLossRate_fresh_fin cf hc hS hR hRS h64
  refine ⟨?_, ⟨_, hv, h0, h1, lossRate_accuracy hS hR hRS⟩, ?_, ?_,
    getLossRate_fresh_small cf hc hS hR hRS⟩
  · rw [getLossRate_fresh cf hc, wrapInt64_of_inInt64]
    unfold InInt64 at h64 ⊢
    omega
  · rw [hv]
    simp only [GoFloat.le, GoFloat.lt, GoFloat.eq, GoFloat.zero, GoFloat.signed, Bool.or_eq_true,
      decide_eq_true_eq, Bool.false_eq_true, if_false]
    exact lt_or_eq_of_le h0
  · rw [hv]
    simp only [GoFloat.le, GoFloat.lt, GoFloat.eq, GoFloat.one, GoFloat.signed, Bool.or_eq_true,
      decide_eq_true_eq, Bool.false_eq_true, if_false]
    exact lt_or_eq_of_le h1

theorem getLossRate_value_range_witness :
    (getLossRate lossyRecord).1 = GoFloat.div binary32
        (GoFloat.ofInt binary32 (lossyRecord.Sended - lossyRecord.Received))
        (GoFloat.ofInt binary32 lossyRecord.Sended) ∧
      (∃ m : ℚ, (getLossRate lossyRecord).1 = GoFloat.fin false m ∧ 0 ≤ m ∧ m ≤ 1 ∧
        |m - ((lossyRecord.Sended - lossyRecord.Received : Int) : ℚ) / (lossyRecord.Sended : ℚ)| ≤
          2 ^ (-22 : ℤ)) ∧
      GoFloat.le GoFloat.zero (getLossRate lossyRecord).1 = true ∧
      GoFloat.le (getLossRate lossyRecord).1 GoFloat.one = true ∧
      (lossyRecord.Sended ≤ 2 ^ 24 → (getLossRate lossyRecord).1 = GoFloat.fin false
        (roundMag binary32 (((lossyRecord.Sended - lossyRecord.Received : Int) : ℚ) /
          (lossyRecord.Sended : ℚ)))) :=
  getLossRate_value_range lossyRecord (by decide) (by decide) (by decide) (by decide) (by decide)

/-! ## Theorems: `FilterLossRate` -/

theorem List.takeWhile_eq_filter_of_pairwise {α : Type} (R : α → α → Prop) (p : α → Bool)
    (hR : ∀ a b, R a b → p b = true → p a = true) (l : List α) (hl : l.Pairwise R) :
    l.takeWhile p = l.filter p := by
  induction l with
  | nil => rfl
  | cons x rest ih =>
    rw [List.pairwise_cons] at hl
    cases hx : p x with
    | true => rw [List.takeWhile_cons_of_pos hx, List.filter_cons_of_pos hx, ih hl.2]
    | false =>
      rw [List.takeWhile_cons_of_neg (by simp [hx]), List.filter_cons_of_neg (by simp [hx])]
      symm
      rw [List.filter_eq_nil_iff]
      intro a ha hpa
      have := hR x a (hl.1 a ha) hpa
      rw [hx] at this
      exact Bool.false_ne_true this

theorem FilterLossRate_loop_append (cfg : Config) (l : List CloudflareIPData)
    (data : PingDelaySet) :
    FilterLossRate.loop cfg l data = data ++ FilterLossRate.loop cfg l [] := by
  induction l generalizing data with
  | nil => simp [FilterLossRate.loop]
  | cons v rest ih =>
    simp only [FilterLossRate.loop]
    split_ifs
    · simp
    · rw [ih (data ++ [(getLossRate v).2]), ih ([] ++ [(getLossRate v).2])]; simp

/-- The loop keeps records until the first one whose loss rate exceeds the
ceiling, and what it keeps are the copies on which `getLossRate` ran. -/
theorem FilterLossRate.loop_eq_takeWhile (cfg : Config) (l : List CloudflareIPData) :
    FilterLossRate.loop cfg l [] =
      (l.takeWhile (fun r => !GoFloat.gt (getLossRate r).1 cfg.InputMaxLossRate)).map
        (fun r => (getLossRate r).2) := by
  induction l with
  | nil => simp [FilterLossRate.loop]
  | cons v rest ih =>
    simp only [FilterLossRate.loop]
    cases h : GoFloat.gt (getLossRate v).1 cfg.InputMaxLossRate with
    | true => simp [h]
    | false =>
      rw [List.takeWhile_cons_of_pos (by simp [h]), FilterLossRate_loop_append, ih]
      simp

theorem GoFloat.ne_nan_of_lt_left {a b : GoFloat} (h : GoFloat.lt a b = true) :
    a ≠ GoFloat.nan := by
  rintro rfl
  simp [GoFloat.lt] at h

theorem FreshRecord.lossRate_ne_nan {r : CloudflareIPData} (h : FreshRecord r) :
    (getLossRate r).1 ≠ GoFloat.nan := by
  obtain ⟨hS, hR, hRS, h64, hz⟩ := h
  rw [(getLossRate_fresh_fin r (by rw [hz]; decide) hS hR hRS h64).1]
  exact fun h => GoFloat.noConfusion h

theorem FreshRecord.reset_cache {r : CloudflareIPData} (h : FreshRecord r) :
    { (getLossRate r).2 with lossRate := GoFloat.zero } = r := by
  obtain ⟨_, _, _, _, hz⟩ := h
  rw [getLossRate_fresh r (by rw [hz]; decide)]
  cases r
  simp only at hz
  simp [hz]

/-- C3. With a ceiling `InputMaxLossRate < 1.0` and records with `Sended > 0`,
`0 ≤ Received ≤ Sended` and an empty (zero) loss-rate cache, the input splits as
`s = kept ++ dropped` where every record of `kept` has loss rate `≤` the
ceiling and `dropped` is empty or begins with a record whose loss rate exceeds
it: `kept` is the longest prefix of `s` within the ceiling.  `FilterLossRate`
returns the records of `kept`, in order, each as the copy on which
`getLossRate` ran (its cache filled, so that resetting the caches gives `kept`
itself).  When `s` is sorted ascending by loss rate, `kept` is the list of all
records of `s` with loss rate `≤` the ceiling. -/
theorem FilterLossRate_active (cfg : Config) (s : PingDelaySet)
    (hs : ∀ r ∈ s, FreshRecord r)
    (hc : GoFloat.lt cfg.InputMaxLossRate (GoFloat.fin false 1) = true) :
    ∃ kept dropped : List CloudflareIPData,
      s = kept ++ dropped ∧
      (∀ r ∈ kept, GoFloat.le (getLossRate r).1 cfg.InputMaxLossRate = true) ∧
      (∀ r, dropped.head? = some r → GoFloat.gt (getLossRate r).1 cfg.InputMaxLossRate = true) ∧
      FilterLossRate cfg s = kept.map (fun r => (getLossRate r).2) ∧
      (FilterLossRate cfg s).map (fun r => { r with lossRate := GoFloat.zero }) = kept ∧
      (s.Pairwise (fun a b => GoFloat.le (getLossRate a).1 (getLossRate b).1 = true) →
        kept = s.filter (fun r => GoFloat.le (getLossRate r).1 cfg.InputMaxLossRate)) := by
  have hcn : cfg.InputMaxLossRate ≠ GoFloat.nan := GoFloat.ne_nan_of_lt_left hc
  have hp : ∀ r ∈ s, (!GoFloat.gt (getLossRate r).1 cfg.InputMaxLossRate) =
      GoFloat.le (getLossRate r).1 cfg.InputMaxLossRate := by
    intro r hr
    rw [GoFloat.gt_eq_not_le (hs r hr).lossRate_ne_nan hcn, Bool.not_not]
  have htw : s.takeWhile (fun r => !GoFloat.gt (getLossRate r).1 cfg.InputMaxLossRate) =
      s.takeWhile (fun r => GoFloat.le (getLossRate r).1 cfg.InputMaxLossRate) := by
    clear hs
    induction s with
    | nil => rfl
    | cons x rest ih =>
      have hx := hp x (List.mem_cons_self x rest)
      simp only [List.takeWhile_cons, hx]
      rw [ih (fun r hr => hp r (List.mem_cons_of_mem x hr))]
  have hout : FilterLossRate cfg s =
      (s.takeWhile (fun r => GoFloat.le (getLossRate r).1 cfg.InputMaxLossRate)).map
        (fun r => (getLossRate r).2) := by
    unfold FilterLossRate
    have hge : ¬ GoFloat.ge cfg.InputMaxLossRate maxLossRate = true := by
      have := GoFloat.gt_eq_not_le (a := GoFloat.fin false 1) (b := cfg.InputMaxLossRate)
        (fun h => GoFloat.noConfusion h) hcn
      unfold GoFloat.gt at this
      rw [hc] at this
      unfold GoFloat.ge maxLossRate GoFloat.one
      intro h
      rw [h] at this
      exact Bool.noConfusion this
    rw [if_neg hge, FilterLossRate.loop_eq_takeWhile, htw]
  refine ⟨s.takeWhile (fun r => GoFloat.le (getLossRate r).1 cfg.InputMaxLossRate),
    s.dropWhile (fun r => GoFloat.le (getLossRate r).1 cfg.InputMaxLossRate),
    (List.takeWhile_append_dropWhile _ s).symm, ?_, ?_, hout, ?_, ?_⟩
  · intro r hr
    exact List.mem_takeWhile_imp
      (p := fun r => GoFloat.le (getLossRate r).1 cfg.InputMaxLossRate) hr
  · intro r hr
    have hmem : r ∈ s.dropWhile (fun r => GoFloat.le (getLossRate r).1 cfg.InputMaxLossRate) :=
      List.mem_of_mem_head? hr
    have hrs : r ∈ s := (List.dropWhile_sublist _).subset hmem
    have hnot := List.head?_dropWhile_not
      (fun r => GoFloat.le (getLossRate r).1 cfg.InputMaxLossRate) s
    rw [hr] at hnot
    simp only at hnot
    rw [GoFloat.gt_eq_not_le (hs r hrs).lossRate_ne_nan hcn]
    simpa using hnot
  · rw [hout, List.map_map]
    have : ∀ l : List CloudflareIPData, (∀ r ∈ l, FreshRecord r) →
        l.map ((fun r => { r with lossRate := GoFloat.zero }) ∘ fun r => (getLossRate r).2) =
          l := by
      intro l hl
      induction l with
      | nil => rfl
      | cons x rest ih =>
        rw [List.map_cons, ih (fun r hr => hl r (List.mem_cons_of_mem x hr))]
        congr 1
        exact (hl x (List.mem_cons_self x rest)).reset_cache
    exact this _ (fun r hr => hs r ((List.takeWhile_sublist _).subset hr))
  · intro hsorted
    exact List.takeWhile_eq_filter_of_pairwise _ _
      (fun a b hab hb => GoFloat.le_trans hab hb) s hsorted

theorem FilterLossRate_active_witness :
    ∃ kept dropped : List CloudflareIPData,
      [cleanRecord, lossyRecord, cleanRecord] = kept ++ dropped ∧
      (∀ r ∈ kept, GoFloat.le (getLossRate r).1 ceilingConfig.InputMaxLossRate = true) ∧
      (∀ r, dropped.head? = some r →
        GoFloat.gt (getLossRate r).1 ceilingConfig.InputMaxLossRate = true) ∧
      FilterLossRate ceilingConfig [cleanRecord, lossyRecord, cleanRecord] =
        kept.map (fun r => (getLossRate r).2) ∧
      (FilterLossRate ceilingConfig [cleanRecord, lossyRecord, cleanRecord]).map
        (fun r => { r with lossRate := GoFloat.zero }) = kept ∧
      ([cleanRecord, lossyRecord, cleanRecord].Pairwise
          (fun a b => GoFloat.le (getLossRate a).1 (getLossRate b).1 = true) →
        kept = [cleanRecord, lossyRecord, cleanRecord].filter
          (fun r => GoFloat.le (getLossRate r).1 ceilingConfig.InputMaxLossRate)) :=
  FilterLossRate_active ceilingConfig [cleanRecord, lossyRecord, cleanRecord]
    (by decide) (by norm_num [ceilingConfig, GoFloat.lt, GoFloat.signed])

/-- C4. `FilterLossRate` returns its input unchanged whenever
`InputMaxLossRate >= 1.0`. -/
theorem FilterLossRate_disabled (cfg : Config) (s : PingDelaySet)
    (h : GoFloat.ge cfg.InputMaxLossRate (GoFloat.fin false 1) = true) :
    FilterLossRate cfg s = s := by
  unfold FilterLossRate maxLossRate GoFloat.one
  rw [if_pos h]

theorem FilterLossRate_disabled_witness :
    FilterLossRate defaultConfig [lossyRecord, cleanRecord] = [lossyRecord, cleanRecord] :=
  FilterLossRate_disabled defaultConfig _ (by decide)

/-! ## Theorems: `PingDelaySet.Less` -/

theorem GoFloat.lt_eq_false_of_eq {a b : GoFloat} (h : GoFloat.eq a b = true) :
    GoFloat.lt a b = false := by
  cases a with
  | nan => simp [GoFloat.lt]
  | inf n₁ =>
    cases b with
    | nan => rfl
    | inf n₂ => revert h; cases n₁ <;> cases n₂ <;> simp [GoFloat.eq, GoFloat.lt]
    | fin s₂ m₂ => simp [GoFloat.eq] at h
  | fin s₁ m₁ =>
    cases b with
    | nan => rfl
    | inf n₂ => simp [GoFloat.eq] at h
    | fin s₂ m₂ =>
      simp only [GoFloat.eq, decide_eq_true_eq] at h
      simp [GoFloat.lt, h]

theorem GoFloat.lt_irrefl (a : GoFloat) : GoFloat.lt a a = false := by
  cases a with
  | nan => rfl
  | inf n => cases n <;> rfl
  | fin s m => simp [GoFloat.lt]

/-- The comparison `Less` makes on two loss rates and two delays. -/
theorem lessStep_eq_lex (a b : GoFloat) (d : Bool) :
    (if GoFloat.ne a b = true then GoFloat.lt a b else d) =
      (GoFloat.lt a b || (GoFloat.eq a b && d)) := by
  unfold GoFloat.ne
  cases h : GoFloat.eq a b with
  | true => simp [GoFloat.lt_eq_false_of_eq h]
  | false => simp

theorem getLossRate_snd_Delay (cf : CloudflareIPData) : (getLossRate cf).2.Delay = cf.Delay := by
  unfold getLossRate
  split_ifs <;> rfl

/-- A second call returns what the first call returned. -/
theorem getLossRate_snd_fst (cf : CloudflareIPData) :
    (getLossRate (getLossRate cf).2).1 = (getLossRate cf).1 := by
  by_cases hc : GoFloat.eq cf.lossRate GoFloat.zero = true
  · rw [getLossRate_fresh cf hc]
    simp only
    unfold getLossRate
    simp only
    split_ifs <;> rfl
  · unfold getLossRate
    simp only [if_neg hc]

theorem Less_eq_lex (s : PingDelaySet) (i j : Nat) (hi : i < s.length) (hj : j < s.length) :
    (Less s i j).map Prod.fst =
      some (GoFloat.lt (getLossRate s[i]).1 (getLossRate s[j]).1 ||
        (GoFloat.eq (getLossRate s[i]).1 (getLossRate s[j]).1 &&
          decide (s[i].Delay < s[j].Delay))) := by
  unfold Less
  rw [List.getElem?_eq_getElem hi]
  simp only
  by_cases hij : i = j
  · subst hij
    rw [List.getElem?_set_self (by simpa using hi)]
    simp only [Option.map_some', getLossRate_snd_fst, getLossRate_snd_Delay]
    split_ifs <;> simp [lessStep_eq_lex, GoFloat.lt_irrefl]
  · rw [List.getElem?_set_ne hij, List.getElem?_eq_getElem hj]
    simp only
    rw [← lessStep_eq_lex]
    split_ifs <;> rfl

theorem cleanRecord_lossRate : (getLossRate cleanRecord).1 = GoFloat.fin false 0 := by
  rw [getLossRate_fresh_small cleanRecord (by decide) (by decide) (by decide) (by decide)
    (by decide)]
  congr 1
  simpa [cleanRecord] using roundMag_zero binary32

theorem lossyRecord_lossRate : (getLossRate lossyRecord).1 = GoFloat.fin false (1 / 2) := by
  rw [getLossRate_fresh_small lossyRecord (by decide) (by decide) (by decide) (by decide)
    (by decide)]
  congr 1
  have h : (((lossyRecord.Sended - lossyRecord.Received : Int) : ℚ) / (lossyRecord.Sended : ℚ)) =
      ((1 : ℤ) : ℚ) * 2 ^ (-1 : ℤ) := by
    norm_num [lossyRecord]
  have h' : (1 / 2 : ℚ) = ((1 : ℤ) : ℚ) * 2 ^ (-1 : ℤ) := by norm_num
  rw [h, h']
  exact roundMag_eq_self_of_dyadic binary32 1 (-1) (by decide) (by norm_num [binary32])
    (by decide)

theorem Less_clean_lossy :
    (Less [cleanRecord, lossyRecord] 0 1).map Prod.fst = some true ∧
      (Less [cleanRecord, lossyRecord] 1 0).map Prod.fst = some false ∧
      (Less [lossyRecord, cleanRecord] 1 0).map Prod.fst = some true := by
  refine ⟨?_, ?_, ?_⟩
  · rw [Less_eq_lex _ 0 1 (by decide) (by decide)]
    simp only [List.getElem_cons_zero, List.getElem_cons_succ, cleanRecord_lossRate,
      lossyRecord_lossRate]
    norm_num [GoFloat.lt, GoFloat.eq, GoFloat.signed]
  · rw [Less_eq_lex _ 1 0 (by decide) (by decide)]
    simp only [List.getElem_cons_zero, List.getElem_cons_succ, cleanRecord_lossRate,
      lossyRecord_lossRate]
    norm_num [GoFloat.lt, GoFloat.eq, GoFloat.signed]
  · rw [Less_eq_lex _ 1 0 (by decide) (by decide)]
    simp only [List.getElem_cons_zero, List.getElem_cons_succ, cleanRecord_lossRate,
      lossyRecord_lossRate]
    norm_num [GoFloat.lt, GoFloat.eq, GoFloat.signed]

/-- C6. `Less` is the lexicographic order on (loss rate, delay): at valid
indices it returns, and it returns true exactly when
`lossRate(s[i]) < lossRate(s[j])`, or `lossRate(s[i]) == lossRate(s[j])` and
`s[i].Delay < s[j].Delay`.  For `{sent 10, received 10, delay 20ms}` and
`{sent 10, received 5, delay 50ms}` the first is `Less` than the second and not
conversely, so that `[1.1.1.1, 2.2.2.2]` is the arrangement of the two in
ranking order and `[2.2.2.2, 1.1.1.1]` is not. -/
theorem Less_lexicographic :
    (∀ (s : PingDelaySet) (i j : Nat) (hi : i < s.length) (hj : j < s.length),
      (Less s i j).map Prod.fst =
        some (decide (GoFloat.lt (getLossRate s[i]).1 (getLossRate s[j]).1 = true ∨
          (GoFloat.eq (getLossRate s[i]).1 (getLossRate s[j]).1 = true ∧
            s[i].Delay < s[j].Delay)))) ∧
      (Less [cleanRecord, lossyRecord] 0 1).map Prod.fst = some true ∧
      (Less [cleanRecord, lossyRecord] 1 0).map Prod.fst = some false ∧
      RankOrdered [cleanRecord, lossyRecord] ∧ ¬ RankOrdered [lossyRecord, cleanRecord] := by
  refine ⟨?_, Less_clean_lossy.1, Less_clean_lossy.2.1, ?_, ?_⟩
  · intro s i j hi hj
    rw [Less_eq_lex s i j hi hj]
    congr 1
    rw [Bool.eq_iff_iff]
    simp
  · intro j hj i hij
    have hj' : j = 1 := by simp at hj; omega
    have hi' : i = 0 := by omega
    subst hj' hi'
    rw [Less_clean_lossy.2.1]
    simp
  · intro h
    exact h 1 (by decide) 0 (by decide) Less_clean_lossy.2.2

theorem Less_lexicographic_witness :
    (Less [lossyRecord, cleanRecord] 0 1).map Prod.fst =
      some (decide (GoFloat.lt (getLossRate lossyRecord).1 (getLossRate cleanRecord).1 = true ∨
        (GoFloat.eq (getLossRate lossyRecord).1 (getLossRate cleanRecord).1 = true ∧
          lossyRecord.Delay < cleanRecord.Delay))) :=
  Less_lexicographic.1 [lossyRecord, cleanRecord] 0 1 (by decide) (by decide)

/-! ## Theorems: the grouping stage of `ExportCsv` -/

theorem capLoop_eq_append_take (coloLimit : Int) (l : List CloudflareIPData) (count : Int)
    (limitedData : List CloudflareIPData) :
    ExportCsv.capLoop coloLimit l count limitedData =
      limitedData ++ l.take (coloLimit - count).toNat := by
  induction l generalizing count limitedData with
  | nil => simp [ExportCsv.capLoop]
  | cons x rest ih =>
    simp only [ExportCsv.capLoop]
    split_ifs with h
    · have : (coloLimit - count).toNat = 0 := by omega
      simp [this]
    · rw [ih]
      have : (coloLimit - count).toNat = (coloLimit - (count + 1)).toNat + 1 := by omega
      rw [this, List.take_succ_cons]
      simp

theorem foldl_capLoop_eq (coloLimit : Int) (it : ColoMap) (init : List CloudflareIPData) :
    it.foldl (fun limitedData e => ExportCsv.capLoop coloLimit e.2 0 limitedData) init =
      init ++ it.flatMap (fun e => e.2.take coloLimit.toNat) := by
  induction it generalizing init with
  | nil => simp
  | cons e rest ih =>
    rw [List.foldl_cons, ih, capLoop_eq_append_take]
    simp

/-- The capped collection is the concatenation, in iteration order, of the
first `coloLimit` records of each bucket. -/
theorem limitedData_eq_flatMap (cfg : Config) (it : ColoMap) :
    ExportCsv.limitedData cfg it = it.flatMap (fun e => e.2.take cfg.coloLimit.toNat) := by
  unfold ExportCsv.limitedData
  rw [foldl_capLoop_eq]
  simp

theorem ColoMap.map_fst_set (m : ColoMap) (k : String) (v : List CloudflareIPData) :
    (m.set k v).map Prod.fst =
      if k ∈ m.map Prod.fst then m.map Prod.fst else m.map Prod.fst ++ [k] := by
  induction m with
  | nil => simp [ColoMap.set]
  | cons e rest ih =>
    obtain ⟨k', v'⟩ := e
    simp only [ColoMap.set]
    by_cases h : k' = k
    · subst h; simp
    · rw [if_neg h, List.map_cons, ih]
      have h' : ¬ k = k' := fun h'' => h h''.symm
      by_cases hm : k ∈ rest.map Prod.fst
      · rw [if_pos hm, if_pos (by simp [hm])]; rfl
      · rw [if_neg hm, if_neg (by simp only [List.map_cons, List.mem_cons, not_or]; exact ⟨h', hm⟩)]
        rfl

theorem ColoMap.mem_set (m : ColoMap) (k : String) (v : List CloudflareIPData)
    (hm : (m.map Prod.fst).Nodup) (e : String × List CloudflareIPData) :
    e ∈ m.set k v ↔ e = (k, v) ∨ (e ∈ m ∧ e.1 ≠ k) := by
  induction m with
  | nil => simp [ColoMap.set]
  | cons e' rest ih =>
    obtain ⟨k', v'⟩ := e'
    rw [List.map_cons, List.nodup_cons] at hm
    simp only [ColoMap.set]
    by_cases h : k' = k
    · subst h
      rw [if_pos rfl, List.mem_cons, List.mem_cons]
      constructor
      · rintro (h | h)
        · exact Or.inl h
        · right
          refine ⟨Or.inr h, ?_⟩
          intro he
          exact hm.1 (by rw [← he]; exact List.mem_map.mpr ⟨e, h, rfl⟩)
      · rintro (h | ⟨h | h, hne⟩)
        · exact Or.inl h
        · exact absurd (by rw [h]) hne
        · exact Or.inr h
    · rw [if_neg h, List.mem_cons, ih hm.2, List.mem_cons]
      constructor
      · rintro (h1 | h1 | ⟨h1, h2⟩)
        · right; exact ⟨Or.inl h1, by rw [h1]; exact h⟩
        · exact Or.inl h1
        · exact Or.inr ⟨Or.inr h1, h2⟩
      · rintro (h1 | ⟨h1 | h1, h2⟩)
        · exact Or.inr (Or.inl h1)
        · exact Or.inl h1
        · exact Or.inr (Or.inr ⟨h1, h2⟩)

theorem ColoMap.get_of_not_mem (m : ColoMap) (k : String) (h : k ∉ m.map Prod.fst) :
    m.get k = [] := by
  induction m with
  | nil => rfl
  | cons e rest ih =>
    obtain ⟨k', v'⟩ := e
    simp only [List.map_cons, List.mem_cons, not_or] at h
    simp only [ColoMap.get]
    rw [if_neg (fun h' => h.1 h'.symm), ih h.2]

theorem ColoMap.get_of_mem (m : ColoMap) (k : String) (v : List CloudflareIPData)
    (hm : (m.map Prod.fst).Nodup) (h : (k, v) ∈ m) : m.get k = v := by
  induction m with
  | nil => simp at h
  | cons e rest ih =>
    obtain ⟨k', v'⟩ := e
    rw [List.map_cons, List.nodup_cons] at hm
    simp only [ColoMap.get]
    rcases List.mem_cons.mp h with h | h
    · cases h; rw [if_pos rfl]
    · have hne : k' ≠ k := by
        rintro rfl
        exact hm.1 (List.mem_map.mpr ⟨(k', v), h, rfl⟩)
      rw [if_neg hne, ih hm.2 h]

theorem Grouped.get (data : List CloudflareIPData) (m : ColoMap) (h : Grouped data m)
    (c : String) : m.get c = data.filter (fun r => decide (r.Colo = c)) := by
  obtain ⟨hnd, hb, hcov⟩ := h
  by_cases hc : c ∈ m.map Prod.fst
  · obtain ⟨e, he, rfl⟩ := List.mem_map.mp hc
    rw [ColoMap.get_of_mem m e.1 e.2 hnd he]
    exact (hb e he).1
  · rw [ColoMap.get_of_not_mem m c hc]
    symm
    rw [List.filter_eq_nil_iff]
    intro r hr hrc
    simp only [decide_eq_true_eq] at hrc
    exact hc (hrc ▸ hcov r hr)

theorem Grouped.nil : Grouped [] [] := by
  refine ⟨by simp, by simp, by simp⟩

theorem Grouped.step (data : List CloudflareIPData) (m : ColoMap) (h : Grouped data m)
    (v : CloudflareIPData) :
    Grouped (data ++ [v]) (m.set v.Colo (m.get v.Colo ++ [v])) := by
  have hget := h.get
  obtain ⟨hnd, hb, hcov⟩ := h
  refine ⟨?_, ?_, ?_⟩
  · rw [ColoMap.map_fst_set]
    split_ifs with hk
    · exact hnd
    · rw [List.nodup_append]
      refine ⟨hnd, List.nodup_singleton _, ?_⟩
      intro a ha hb'
      rw [List.mem_singleton] at hb'
      exact hk (hb' ▸ ha)
  · intro e he
    rw [ColoMap.mem_set m _ _ hnd] at he
    rcases he with rfl | ⟨he, hne⟩
    · refine ⟨?_, by simp⟩
      simp only
      rw [hget, List.filter_append]
      simp
    · refine ⟨?_, (hb e he).2⟩
      rw [(hb e he).1, List.filter_append]
      have : ([v].filter fun r => decide (r.Colo = e.1)) = [] := by
        rw [List.filter_eq_nil_iff]
        intro r hr
        rw [List.mem_singleton] at hr
        subst hr
        simpa using fun h' => hne h'.symm
      rw [this, List.append_nil]
  · intro r hr
    rw [ColoMap.map_fst_set]
    rcases List.mem_append.mp hr with hr | hr
    · split_ifs
      · exact hcov r hr
      · exact List.mem_append_left _ (hcov r hr)
    · rw [List.mem_singleton] at hr
      subst hr
      split_ifs with hk
      · exact hk
      · simp

theorem Grouped.foldl (data₀ : List CloudflareIPData) (m₀ : ColoMap) (h : Grouped data₀ m₀)
    (data : List CloudflareIPData) :
    Grouped (data₀ ++ data)
      (data.foldl (fun colos v => colos.set v.Colo (colos.get v.Colo ++ [v])) m₀) := by
  induction data generalizing data₀ m₀ with
  | nil => simpa using h
  | cons v rest ih =>
    rw [List.foldl_cons]
    have := ih (data₀ ++ [v]) _ (h.step data₀ m₀ v)
    simpa using this

/-- The map `colos` built by `ExportCsv` holds, under each region code of the
input, the records with that code in input order. -/
theorem Grouped.colos (data : List CloudflareIPData) : Grouped data (ExportCsv.colos data) := by
  have := Grouped.foldl [] [] Grouped.nil data
  simpa [ExportCsv.colos] using this

theorem Grouped.of_iterationOrder {data : List CloudflareIPData} {m it : ColoMap}
    (h : Grouped data m) (hit : IterationOrder m it) : Grouped data it := by
  unfold IterationOrder at hit
  obtain ⟨hnd, hb, hcov⟩ := h
  refine ⟨(hit.map Prod.fst).nodup_iff.mpr hnd, fun e he => hb e (hit.subset he), ?_⟩
  intro r hr
  exact (hit.map Prod.fst).symm.subset (hcov r hr)

theorem filter_flatMap_take (it : ColoMap) (n : Nat) (c : String)
    (hnd : (it.map Prod.fst).Nodup) (hb : ∀ e ∈ it, ∀ r ∈ e.2, r.Colo = e.1) :
    (it.flatMap (fun e => e.2.take n)).filter (fun r => decide (r.Colo = c)) =
      (it.get c).take n := by
  induction it with
  | nil => simp [ColoMap.get]
  | cons e rest ih =>
    obtain ⟨k, l⟩ := e
    rw [List.map_cons, List.nodup_cons] at hnd
    have hrest := ih hnd.2 (fun e he => hb e (List.mem_cons_of_mem _ he))
    rw [List.flatMap_cons, List.filter_append, hrest]
    simp only [ColoMap.get]
    by_cases hk : k = c
    · subst hk
      rw [if_pos rfl, ColoMap.get_of_not_mem rest k hnd.1, List.take_nil, List.append_nil,
        List.filter_eq_self]
      intro r hr
      simpa using hb (k, l) (List.mem_cons_self _ _) r (List.mem_of_mem_take hr)
    · rw [if_neg hk]
      have : ((l.take n).filter fun r => decide (r.Colo = c)) = [] := by
        rw [List.filter_eq_nil_iff]
        intro r hr
        have := hb (k, l) (List.mem_cons_self _ _) r (List.mem_of_mem_take hr)
        simp only at this
        simpa [this] using hk
      rw [this, List.nil_append]

theorem Grouped.colo_eq {data : List CloudflareIPData} {it : ColoMap} (h : Grouped data it) :
    ∀ e ∈ it, ∀ r ∈ e.2, r.Colo = e.1 := by
  intro e he r hr
  rw [(h.2.1 e he).1] at hr
  simpa using (List.mem_filter.mp hr).2

/-- The records of one region in the capped collection are the first
`coloLimit` records of that region in the input, in input order. -/
theorem Grouped.filter_limitedData {data : List CloudflareIPData} {it : ColoMap}
    (h : Grouped data it) (cfg : Config) (c : String) :
    (ExportCsv.limitedData cfg it).filter (fun r => decide (r.Colo = c)) =
      (data.filter (fun r => decide (r.Colo = c))).take cfg.coloLimit.toNat := by
  rw [limitedData_eq_flatMap, filter_flatMap_take it _ c h.1 h.colo_eq, h.get]

theorem Grouped.mem_limitedData {data : List CloudflareIPData} {it : ColoMap}
    (h : Grouped data it) (cfg : Config) {r : CloudflareIPData}
    (hr : r ∈ ExportCsv.limitedData cfg it) : r ∈ data := by
  have : r ∈ (ExportCsv.limitedData cfg it).filter (fun x => decide (x.Colo = r.Colo)) :=
    List.mem_filter.mpr ⟨hr, by simp⟩
  rw [h.filter_limitedData cfg r.Colo] at this
  exact (List.mem_filter.mp (List.mem_of_mem_take this)).1

/-- The bucket of a region code is one contiguous block of the capped
collection. -/
theorem Grouped.contiguous {data : List CloudflareIPData} {it : ColoMap}
    (h : Grouped data it) (cfg : Config) (c : String) :
    ∃ pre post : List CloudflareIPData,
      ExportCsv.limitedData cfg it =
        pre ++ (data.filter (fun r => decide (r.Colo = c))).take cfg.coloLimit.toNat ++ post ∧
      (∀ r ∈ pre, r.Colo ≠ c) ∧ (∀ r ∈ post, r.Colo ≠ c) := by
  have hother : ∀ l : ColoMap, (∀ e ∈ l, e ∈ it ∧ e.1 ≠ c) →
      ∀ r ∈ l.flatMap (fun e => e.2.take cfg.coloLimit.toNat), r.Colo ≠ c := by
    intro l hl r hr
    obtain ⟨e, he, hre⟩ := List.mem_flatMap.mp hr
    rw [h.colo_eq e (hl e he).1 r (List.mem_of_mem_take hre)]
    exact (hl e he).2
  by_cases hc : c ∈ it.map Prod.fst
  · obtain ⟨e, he, rfl⟩ := List.mem_map.mp hc
    obtain ⟨it₁, it₂, hsplit⟩ := List.append_of_mem he
    have hnd := h.1
    rw [hsplit, List.map_append, List.map_cons, List.nodup_append] at hnd
    obtain ⟨_, hnd₂, hdisj⟩ := hnd
    rw [List.nodup_cons] at hnd₂
    refine ⟨it₁.flatMap (fun e => e.2.take cfg.coloLimit.toNat),
      it₂.flatMap (fun e => e.2.take cfg.coloLimit.toNat), ?_, ?_, ?_⟩
    · rw [limitedData_eq_flatMap]
      nth_rewrite 1 [hsplit]
      rw [List.flatMap_append, List.flatMap_cons, (h.2.1 e he).1, List.append_assoc]
    · apply hother
      intro e' he'
      refine ⟨by rw [hsplit]; exact List.mem_append_left _ he', ?_⟩
      intro heq
      exact hdisj (List.mem_map.mpr ⟨e', he', rfl⟩) (by rw [heq]; exact List.mem_cons_self _ _)
    · apply hother
      intro e' he'
      refine ⟨by rw [hsplit]; exact List.mem_append_right _ (List.mem_cons_of_mem _ he'), ?_⟩
      intro heq
      exact hnd₂.1 (by rw [← heq]; exact List.mem_map.mpr ⟨e', he', rfl⟩)
  · refine ⟨ExportCsv.limitedData cfg it, [], ?_, ?_, by simp⟩
    · have : data.filter (fun r => decide (r.Colo = c)) = [] := by
        rw [← h.get, ColoMap.get_of_not_mem it c hc]
      rw [this]; simp
    · rw [limitedData_eq_flatMap]
      apply hother
      intro e he
      exact ⟨he, fun heq => hc (by rw [← heq]; exact List.mem_map.mpr ⟨e, he, rfl⟩)⟩

/-- The region codes that are keys of the map are the distinct region codes of
the input. -/
theorem Grouped.keys_perm {data : List CloudflareIPData} {it : ColoMap} (h : Grouped data it) :
    (it.map Prod.fst).Perm (data.map (fun r => r.Colo)).dedup := by
  rw [List.perm_ext_iff_of_nodup h.1 (List.nodup_dedup _)]
  intro c
  rw [List.mem_dedup]
  constructor
  · intro hc
    obtain ⟨e, he, rfl⟩ := List.mem_map.mp hc
    obtain ⟨hbk, hne⟩ := h.2.1 e he
    obtain ⟨r, hr⟩ := List.exists_mem_of_ne_nil _ hne
    rw [hbk] at hr
    have hr' := List.mem_filter.mp hr
    exact List.mem_map.mpr ⟨r, hr'.1, by simpa using hr'.2⟩
  · intro hc
    obtain ⟨r, hr, rfl⟩ := List.mem_map.mp hc
    exact h.2.2 r hr

/-- The size of the capped collection is the sum over the distinct region
codes of the bucket sizes cut at `coloLimit`. -/
theorem Grouped.length_limitedData {data : List CloudflareIPData} {it : ColoMap}
    (h : Grouped data it) (cfg : Config) :
    (ExportCsv.limitedData cfg it).length =
      (((data.map (fun r => r.Colo)).dedup).map
        (fun c => min (data.countP (fun r => decide (r.Colo = c))) cfg.coloLimit.toNat)).sum := by
  rw [limitedData_eq_flatMap, List.length_flatMap]
  rw [← (h.keys_perm.map _).sum_eq, List.map_map]
  congr 1
  apply List.map_congr_left
  intro e he
  simp only [Function.comp_apply, List.length_take]
  rw [(h.2.1 e he).1, List.countP_eq_length_filter, min_comm]

theorem Grouped.limitedData_single {data : List CloudflareIPData} {it : ColoMap}
    (h : Grouped data it) (cfg : Config) (c : String) (hc : ∀ r ∈ data, r.Colo = c) :
    ExportCsv.limitedData cfg it = data.take cfg.coloLimit.toNat := by
  have h1 := h.filter_limitedData cfg c
  rw [List.filter_eq_self.mpr (fun r hr => by simpa using hc r (h.mem_limitedData cfg hr)),
    List.filter_eq_self.mpr (fun r hr => by simpa using hc r hr)] at h1
  exact h1

/-- C7. For every input and every cap `coloLimit ≥ 0`, whatever order the map
iteration takes, the capped collection `limitedData` holds for each region code
`c` exactly `min (number of input records with Colo = c) coloLimit` records with
`Colo = c`; so no region has more than `coloLimit` records, and the size of
the capped collection is the sum of `min (bucket size) coloLimit` over the
distinct region codes of the input. -/
theorem limitedData_cap_counts (cfg : Config) (data : List CloudflareIPData) (it : ColoMap)
    (hit : IterationOrder (ExportCsv.colos data) it) (hcap : 0 ≤ cfg.coloLimit) :
    (∀ c : String,
      (((ExportCsv.limitedData cfg it).countP (fun r => decide (r.Colo = c)) : ℕ) : ℤ) =
        min ((data.countP (fun r => decide (r.Colo = c)) : ℕ) : ℤ) cfg.coloLimit) ∧
      (∀ c : String,
        (((ExportCsv.limitedData cfg it).countP (fun r => decide (r.Colo = c)) : ℕ) : ℤ) ≤
          cfg.coloLimit) ∧
      (((ExportCsv.limitedData cfg it).length : ℕ) : ℤ) =
        (((data.map (fun r => r.Colo)).dedup).map
          (fun c => min ((data.countP (fun r => decide (r.Colo = c)) : ℕ) : ℤ)
            cfg.coloLimit)).sum := by
  have hg := (Grouped.colos data).of_iterationOrder hit
  have hcast : ∀ a : ℕ, ((min a cfg.coloLimit.toNat : ℕ) : ℤ) = min (a : ℤ) cfg.coloLimit := by
    intro a
    rw [Nat.cast_min, Int.toNat_of_nonneg hcap]
  have hcount : ∀ c : String,
      (((ExportCsv.limitedData cfg it).countP (fun r => decide (r.Colo = c)) : ℕ) : ℤ) =
        min ((data.countP (fun r => decide (r.Colo = c)) : ℕ) : ℤ) cfg.coloLimit := by
    intro c
    rw [List.countP_eq_length_filter, hg.filter_limitedData cfg c, List.length_take,
      List.countP_eq_length_filter, min_comm, hcast]
  refine ⟨hcount, fun c => ?_, ?_⟩
  · rw [hcount c]; exact min_le_right _ _
  · rw [hg.length_limitedData cfg, Nat.cast_list_sum, List.map_map]
    congr 1
    apply List.map_congr_left
    intro c _
    exact hcast _

theorem limitedData_cap_counts_witness :
    (∀ c : String,
      (((ExportCsv.limitedData defaultConfig (ExportCsv.colos nrtNine)).countP
        (fun r => decide (r.Colo = c)) : ℕ) : ℤ) =
        min ((nrtNine.countP (fun r => decide (r.Colo = c)) : ℕ) : ℤ) defaultConfig.coloLimit) ∧
      (∀ c : String,
        (((ExportCsv.limitedData defaultConfig (ExportCsv.colos nrtNine)).countP
          (fun r => decide (r.Colo = c)) : ℕ) : ℤ) ≤ defaultConfig.coloLimit) ∧
      (((ExportCsv.limitedData defaultConfig (ExportCsv.colos nrtNine)).length : ℕ) : ℤ) =
        (((nrtNine.map (fun r => r.Colo)).dedup).map
          (fun c => min ((nrtNine.countP (fun r => decide (r.Colo = c)) : ℕ) : ℤ)
            defaultConfig.coloLimit)).sum :=
  limitedData_cap_counts defaultConfig nrtNine (ExportCsv.colos nrtNine) (List.Perm.refl _)
    (by decide)

/-- C8. Whatever order the map iteration takes, the records of region `c` in
the capped collection `limitedData` are the first `coloLimit` records of region
`c` of the input, in input order, and they form one contiguous block of the
capped collection.  When all input records share one region code, the capped
collection is the first `coloLimit` records of the input; so the nine records
of `nrtNine`, all of region `NRT`, with the cap 8 give the first eight, the
ninth dropped. -/
theorem limitedData_first_per_bucket :
    (∀ (cfg : Config) (data : List CloudflareIPData) (it : ColoMap),
      IterationOrder (ExportCsv.colos data) it →
      (∀ c : String, (ExportCsv.limitedData cfg it).filter (fun r => decide (r.Colo = c)) =
          (data.filter (fun r => decide (r.Colo = c))).take cfg.coloLimit.toNat) ∧
        (∀ c : String, ∃ pre post : List CloudflareIPData,
          ExportCsv.limitedData cfg it =
            pre ++ (data.filter (fun r => decide (r.Colo = c))).take cfg.coloLimit.toNat ++
              post ∧
          (∀ r ∈ pre, r.Colo ≠ c) ∧ (∀ r ∈ post, r.Colo ≠ c)) ∧
        (∀ c : String, (∀ r ∈ data, r.Colo = c) →
          ExportCsv.limitedData cfg it = data.take cfg.coloLimit.toNat)) ∧
      (∀ it : ColoMap, IterationOrder (ExportCsv.colos nrtNine) it →
        ExportCsv.limitedData defaultConfig it = nrtNine.take 8 ∧
          (ExportCsv.limitedData defaultConfig it).length = 8 ∧ nrtNine.length = 9) := by
  constructor
  · intro cfg data it hit
    have hg := (Grouped.colos data).of_iterationOrder hit
    exact ⟨hg.filter_limitedData cfg, hg.contiguous cfg, hg.limitedData_single cfg⟩
  · intro it hit
    have hg := (Grouped.colos nrtNine).of_iterationOrder hit
    have h := hg.limitedData_single defaultConfig "NRT" (by decide)
    exact ⟨h, by rw [h]; decide, by decide⟩

theorem limitedData_first_per_bucket_witness :
    (ExportCsv.limitedData defaultConfig (ExportCsv.colos twoRegions).reverse).filter
        (fun r => decide (r.Colo = "NRT")) =
      (twoRegions.filter (fun r => decide (r.Colo = "NRT"))).take defaultConfig.coloLimit.toNat :=
  (limitedData_first_per_bucket.1 defaultConfig twoRegions (ExportCsv.colos twoRegions).reverse
    (List.reverse_perm _)).1 "NRT"

/-- C9, as stated, fails: the two records of `twoRegions` are grouped into two
buckets, both arrangements of the two buckets are iteration orders of the map,
and they give two different capped collections. -/
theorem limitedData_order_not_determined :
    IterationOrder (ExportCsv.colos twoRegions) (ExportCsv.colos twoRegions) ∧
      IterationOrder (ExportCsv.colos twoRegions) (ExportCsv.colos twoRegions).reverse ∧
      ExportCsv.limitedData defaultConfig (ExportCsv.colos twoRegions) ≠
        ExportCsv.limitedData defaultConfig (ExportCsv.colos twoRegions).reverse := by
  refine ⟨List.Perm.refl _, (List.reverse_perm _), ?_⟩
  decide

/-- C9, amended. The order in which the buckets are concatenated is the
iteration order of the map and is not fixed by the input; two runs on the same
input give capped collections that are permutations of one another and that
agree region by region (same records, same relative order); they are equal
when all input records share one region code. -/
theorem limitedData_order_up_to_perm (cfg : Config) (data : List CloudflareIPData)
    (it₁ it₂ : ColoMap) (h₁ : IterationOrder (ExportCsv.colos data) it₁)
    (h₂ : IterationOrder (ExportCsv.colos data) it₂) :
    (ExportCsv.limitedData cfg it₁).Perm (ExportCsv.limitedData cfg it₂) ∧
      (∀ c : String, (ExportCsv.limitedData cfg it₁).filter (fun r => decide (r.Colo = c)) =
        (ExportCsv.limitedData cfg it₂).filter (fun r => decide (r.Colo = c))) ∧
      ((∀ r ∈ data, ∀ r' ∈ data, r.Colo = r'.Colo) →
        ExportCsv.limitedData cfg it₁ = ExportCsv.limitedData cfg it₂) := by
  have hg₁ := (Grouped.colos data).of_iterationOrder h₁
  have hg₂ := (Grouped.colos data).of_iterationOrder h₂
  refine ⟨?_, fun c => ?_, fun hsame => ?_⟩
  · rw [limitedData_eq_flatMap, limitedData_eq_flatMap]
    unfold IterationOrder at h₁ h₂
    exact (h₁.trans h₂.symm).flatMap_right _
  · rw [hg₁.filter_limitedData, hg₂.filter_limitedData]
  · cases data with
    | nil =>
      rw [hg₁.limitedData_single cfg "" (by simp), hg₂.limitedData_single cfg "" (by simp)]
    | cons r₀ rest =>
      have hc : ∀ r ∈ r₀ :: rest, r.Colo = r₀.Colo :=
        fun r hr => hsame r hr r₀ (List.mem_cons_self _ _)
      rw [hg₁.limitedData_single cfg r₀.Colo hc, hg₂.limitedData_single cfg r₀.Colo hc]

theorem limitedData_order_up_to_perm_witness :
    (ExportCsv.limitedData defaultConfig (ExportCsv.colos twoRegions)).Perm
        (ExportCsv.limitedData defaultConfig (ExportCsv.colos twoRegions).reverse) ∧
      (∀ c : String,
        (ExportCsv.limitedData defaultConfig (ExportCsv.colos twoRegions)).filter
            (fun r => decide (r.Colo = c)) =
          (ExportCsv.limitedData defaultConfig (ExportCsv.colos twoRegions).reverse).filter
            (fun r => decide (r.Colo = c))) ∧
      ((∀ r ∈ twoRegions, ∀ r' ∈ twoRegions, r.Colo = r'.Colo) →
        ExportCsv.limitedData defaultConfig (ExportCsv.colos twoRegions) =
          ExportCsv.limitedData defaultConfig (ExportCsv.colos twoRegions).reverse) :=
  limitedData_order_up_to_perm defaultConfig twoRegions _ _ (List.Perm.refl _)
    (List.reverse_perm _)

/-! ## Theorems: `FilterDelay` after the ranking -/

theorem slowCleanRecord_lossRate : (getLossRate slowCleanRecord).1 = GoFloat.fin false 0 := by
  rw [getLossRate_fresh_small slowCleanRecord (by decide) (by decide) (by decide) (by decide)
    (by decide)]
  congr 1
  simpa [slowCleanRecord, cleanRecord] using roundMag_zero binary32

/-- C10 fails on the code. `rankedPair` is in the order of the ranking (loss
rate 0 before loss rate 0.5) and the window `[10ms, 50ms]` is active; the
second record has a delay of 50ms, inside the window, yet `FilterDelay` stops
at the first record (100ms) and returns nothing. -/
theorem FilterDelay_ranked_drops_in_window :
    RankOrdered rankedPair ∧
      minDelay ≤ windowConfig.InputMinDelay ∧ windowConfig.InputMaxDelay ≤ maxDelay ∧
      ¬ (windowConfig.InputMinDelay = minDelay ∧ windowConfig.InputMaxDelay = maxDelay) ∧
      rankedPair.filter (inWindow windowConfig) = [lossyRecord] ∧
      FilterDelay windowConfig rankedPair = [] := by
  refine ⟨?_, by decide, by decide, by decide, by decide, by decide⟩
  intro j hj i hij
  have hj' : j = 1 := by simp [rankedPair] at hj; omega
  have hi' : i = 0 := by omega
  subst hj' hi'
  rw [Less_eq_lex _ 1 0 (by decide) (by decide)]
  simp only [rankedPair, List.getElem_cons_zero, List.getElem_cons_succ, slowCleanRecord_lossRate,
    lossyRecord_lossRate]
  norm_num [GoFloat.lt, GoFloat.eq, GoFloat.signed]

/-! ## Theorems: `toAirport` -/

theorem lookup_of_mem_of_nodup (l : List (String × String)) (hl : (l.map Prod.fst).Nodup)
    (k v : String) (h : (k, v) ∈ l) : l.lookup k = some v := by
  induction l with
  | nil => simp at h
  | cons e rest ih =>
    obtain ⟨k', v'⟩ := e
    rw [List.map_cons, List.nodup_cons] at hl
    rcases List.mem_cons.mp h with h1 | h1
    · cases h1
      simp [List.lookup]
    · have hne : k ≠ k' := by
        intro hk
        exact hl.1 (List.mem_map.mpr ⟨(k, v), h1, hk⟩)
      simp only [List.lookup]
      have hb : (k == k') = false := by simpa using hne
      rw [hb]
      exact ih hl.2 h1

theorem lookup_of_not_mem (l : List (String × String)) (k : String)
    (h : ∀ e ∈ l, e.1 ≠ k) : l.lookup k = none := by
  induction l with
  | nil => rfl
  | cons e rest ih =>
    obtain ⟨k', v'⟩ := e
    have hne : k ≠ k' := fun h' => h (k', v') (List.mem_cons_self _ _) h'.symm
    simp only [List.lookup]
    have hb : (k == k') = false := by simpa using hne
    rw [hb]
    exact ih (fun e he => h e (List.mem_cons_of_mem _ he))

theorem airportMap_nodup : (airportMap.map Prod.fst).Nodup := by decide

/-- C11. `toAirport` returns the mapped name for every region code of the
table (`"LAX"` gives `"洛杉矶"`, `"NRT"` gives `"东京"`) and returns the code
unchanged for every code absent from the table, the empty string included; it
is a total function. -/
theorem toAirport_table :
    (∀ (cf : CloudflareIPData) (name : String), (cf.Colo, name) ∈ airportMap →
      toAirport cf = name) ∧
    (∀ cf : CloudflareIPData, (∀ e ∈ airportMap, e.1 ≠ cf.Colo) → toAirport cf = cf.Colo) ∧
    toAirport cleanRecord = "洛杉矶" ∧
    toAirport { cleanRecord with Colo := "NRT" } = "东京" ∧
    toAirport { cleanRecord with Colo := "" } = "" := by
  refine ⟨?_, ?_, by decide, by decide, by decide⟩
  · intro cf name h
    unfold toAirport
    rw [lookup_of_mem_of_nodup airportMap airportMap_nodup _ _ h]
  · intro cf h
    unfold toAirport
    rw [lookup_of_not_mem airportMap _ h]

theorem toAirport_table_witness :
    toAirport { lossyRecord with Colo := "XXX" } = "XXX" :=
  toAirport_table.2.1 { lossyRecord with Colo := "XXX" } (by decide)

/-! ## Theorems: `convertToStringOnlyIp` -/

theorem foldl_append_singleton {α β : Type} (f : α → β) (l : List α) (init : List β) :
    l.foldl (fun result v => result ++ [f v]) init = init ++ l.map f := by
  induction l generalizing init with
  | nil => simp
  | cons x rest ih => rw [List.foldl_cons, ih]; simp

/-- C13. `convertToStringOnlyIp` returns one row per record, in input order, the
row of a record being the single field made of its address text, `#`, the
marker `👍` and `toAirport` of the record; so a record with a region code that
is not in the table gives `address#👍code`. -/
theorem convertToStringOnlyIp_rows :
    (∀ data : List CloudflareIPData,
      convertToStringOnlyIp data =
          data.map (fun v => [v.IP.String ++ "#" ++ "👍" ++ toAirport v]) ∧
        (convertToStringOnlyIp data).length = data.length ∧
        ∀ (i : Nat) (h : i < data.length),
          (convertToStringOnlyIp data)[i]? =
            some [data[i].IP.String ++ "#" ++ "👍" ++ toAirport data[i]]) ∧
    (∀ v : CloudflareIPData, (∀ e ∈ airportMap, e.1 ≠ v.Colo) →
      convertToStringOnlyIp [v] = [[v.IP.String ++ "#" ++ "👍" ++ v.Colo]]) ∧
    convertToStringOnlyIp [cleanRecord, { lossyRecord with Colo := "XXX" }] =
      [["1.1.1.1#👍洛杉矶"], ["2.2.2.2#👍XXX"]] := by
  have hmap : ∀ data : List CloudflareIPData, convertToStringOnlyIp data =
      data.map (fun v => [v.IP.String ++ "#" ++ "👍" ++ toAirport v]) := by
    intro data
    unfold convertToStringOnlyIp
    rw [show (fun (result : List (List String)) (v : CloudflareIPData) =>
        result ++ [[v.IP.String ++ "#👍" ++ toAirport v]]) =
      (fun result v => result ++ [(fun v : CloudflareIPData =>
        [v.IP.String ++ "#" ++ "👍" ++ toAirport v]) v]) from by
      funext result v
      simp [String.append_assoc]]
    rw [foldl_append_singleton]
    simp
  refine ⟨fun data => ⟨hmap data, ?_, ?_⟩, ?_, by decide⟩
  · rw [hmap, List.length_map]
  · intro i h
    rw [hmap, List.getElem?_map, List.getElem?_eq_getElem h]
    rfl
  · intro v h
    rw [hmap]
    simp only [List.map_cons, List.map_nil]
    unfold toAirport
    rw [lookup_of_not_mem airportMap _ h]

theorem convertToStringOnlyIp_rows_witness :
    (convertToStringOnlyIp twoRegions)[1]? =
      some [twoRegions[1].IP.String ++ "#" ++ "👍" ++ toAirport twoRegions[1]] :=
  (convertToStringOnlyIp_rows.1 twoRegions).2.2 1 (by decide)

/-! ## Theorems: the loss-rate cache -/

theorem getLossRate_cached (cf : CloudflareIPData)
    (hc : GoFloat.eq cf.lossRate GoFloat.zero = false) : getLossRate cf = (cf.lossRate, cf) := by
  unfold getLossRate
  rw [if_neg (by rw [hc]; exact Bool.false_ne_true)]

/-- A second call leaves the record as the first call left it. -/
theorem getLossRate_snd_snd (cf : CloudflareIPData) :
    (getLossRate (getLossRate cf).2).2 = (getLossRate cf).2 := by
  by_cases hc : GoFloat.eq cf.lossRate GoFloat.zero = true
  · rw [getLossRate_fresh cf hc]
    simp only
    unfold getLossRate
    simp only
    split_ifs <;> rfl
  · unfold getLossRate
    simp only [if_neg hc]

/-- C17. For a record whose cached loss rate is non-zero (`lossRate == 0` is
false), `getLossRate` returns the cached value and leaves the record unchanged,
whatever `Sended` and `Received` are.  For a record with `Sended > 0`, a second
call of `getLossRate` returns the value the first call returned and leaves the
record as the first call left it. -/
theorem getLossRate_cache :
    (∀ cf : CloudflareIPData, GoFloat.eq cf.lossRate GoFloat.zero = false →
      (getLossRate cf).1 = cf.lossRate ∧ (getLossRate cf).2 = cf ∧
        ∀ sended received : Int,
          getLossRate { cf with Sended := sended, Received := received } =
            (cf.lossRate, { cf with Sended := sended, Received := received })) ∧
    (∀ cf : CloudflareIPData, 0 < cf.Sended →
      (getLossRate (getLossRate cf).2).1 = (getLossRate cf).1 ∧
        (getLossRate (getLossRate cf).2).2 = (getLossRate cf).2) := by
  constructor
  · intro cf hc
    rw [getLossRate_cached cf hc]
    refine ⟨rfl, rfl, fun sended received => ?_⟩
    exact getLossRate_cached _ hc
  · intro cf _
    exact ⟨getLossRate_snd_fst cf, getLossRate_snd_snd cf⟩

theorem getLossRate_cache_witness :
    (getLossRate (getLossRate lossyRecord).2).1 = (getLossRate lossyRecord).1 ∧
      (getLossRate (getLossRate lossyRecord).2).2 = (getLossRate lossyRecord).2 :=
  getLossRate_cache.2 lossyRecord (by decide)

/-! ## Theorems: `FilterDelay` on any input -/

theorem FilterDelay_loop_inWindow (cfg : Config) (l : List CloudflareIPData) :
    ∀ r ∈ FilterDelay.loop cfg l [], inWindow cfg r = true := by
  induction l with
  | nil => simp [FilterDelay.loop]
  | cons v rest ih =>
    simp only [FilterDelay.loop]
    split_ifs with h1 h2
    · simp
    · exact ih
    · rw [FilterDelay_loop_append]
      intro r hr
      rcases List.mem_append.mp hr with hr | hr
      · simp only [List.nil_append, List.mem_singleton] at hr
        subst hr
        simp only [inWindow, decide_eq_true_eq]
        constructor <;> omega
      · exact ih r hr

theorem FilterDelay_loop_of_inWindow (cfg : Config) (l : List CloudflareIPData)
    (h : ∀ r ∈ l, inWindow cfg r = true) : FilterDelay.loop cfg l [] = l := by
  induction l with
  | nil => simp [FilterDelay.loop]
  | cons v rest ih =>
    have hv := h v (List.mem_cons_self _ _)
    simp only [inWindow, decide_eq_true_eq] at hv
    simp only [FilterDelay.loop]
    rw [if_neg (by omega), if_neg (by omega), FilterDelay_loop_append,
      ih (fun r hr => h r (List.mem_cons_of_mem _ hr))]
    simp

/-- C20. On any input, sorted or not: under an active window (neither guard of
`FilterDelay` applies) every record of `FilterDelay(s)` has
`InputMinDelay ≤ Delay ≤ InputMaxDelay`; and under every configuration
`FilterDelay(FilterDelay(s)) = FilterDelay(s)`. -/
theorem FilterDelay_sound_idempotent (cfg : Config) (s : PingDelaySet) :
    (¬ (cfg.InputMaxDelay > maxDelay ∨ cfg.InputMinDelay < minDelay) →
      ¬ (cfg.InputMaxDelay = maxDelay ∧ cfg.InputMinDelay = minDelay) →
      ∀ r ∈ FilterDelay cfg s, cfg.InputMinDelay ≤ r.Delay ∧ r.Delay ≤ cfg.InputMaxDelay) ∧
    FilterDelay cfg (FilterDelay cfg s) = FilterDelay cfg s := by
  constructor
  · intro h1 h2 r hr
    unfold FilterDelay at hr
    rw [if_neg h1, if_neg h2] at hr
    simpa [inWindow] using FilterDelay_loop_inWindow cfg s r hr
  · unfold FilterDelay
    split_ifs with h1 h2
    · rfl
    · rfl
    · exact FilterDelay_loop_of_inWindow cfg _ (FilterDelay_loop_inWindow cfg s)

theorem FilterDelay_sound_idempotent_witness :
    (∀ r ∈ FilterDelay windowConfig [delayRecord 80, delayRecord 20, delayRecord 5],
      windowConfig.InputMinDelay ≤ r.Delay ∧ r.Delay ≤ windowConfig.InputMaxDelay) ∧
    FilterDelay windowConfig
        (FilterDelay windowConfig [delayRecord 80, delayRecord 20, delayRecord 5]) =
      FilterDelay windowConfig [delayRecord 80, delayRecord 20, delayRecord 5] :=
  ⟨(FilterDelay_sound_idempotent windowConfig
      [delayRecord 80, delayRecord 20, delayRecord 5]).1 (by decide) (by decide),
    (FilterDelay_sound_idempotent windowConfig
      [delayRecord 80, delayRecord 20, delayRecord 5]).2⟩

/-! ## Theorems: the filters only select -/

theorem FilterDelay_loopMem_eq (cfg : Config) (seen l : List CloudflareIPData)
    (data : PingDelaySet) :
    FilterDelay.loopMem cfg seen l data = (FilterDelay.loop cfg l data, seen ++ l) := by
  induction l generalizing seen data with
  | nil => simp [FilterDelay.loopMem, FilterDelay.loop]
  | cons v rest ih =>
    simp only [FilterDelay.loopMem, FilterDelay.loop]
    split_ifs
    · rfl
    · rw [ih]; simp
    · rw [ih]; simp

theorem FilterLossRate_loopMem_eq (cfg : Config) (seen l : List CloudflareIPData)
    (data : PingDelaySet) :
    FilterLossRate.loopMem cfg seen l data = (FilterLossRate.loop cfg l data, seen ++ l) := by
  induction l generalizing seen data with
  | nil => simp [FilterLossRate.loopMem, FilterLossRate.loop]
  | cons v rest ih =>
    simp only [FilterLossRate.loopMem, FilterLossRate.loop]
    split_ifs
    · rfl
    · rw [ih]; simp

theorem FilterDelay_loop_sublist (cfg : Config) (l : List CloudflareIPData) :
    (FilterDelay.loop cfg l []).Sublist l := by
  induction l with
  | nil => simp [FilterDelay.loop]
  | cons v rest ih =>
    simp only [FilterDelay.loop]
    split_ifs
    · exact List.nil_sublist _
    · exact ih.cons v
    · rw [FilterDelay_loop_append]
      exact ih.cons₂ v

theorem getLossRate_sameMeasurement (cf : CloudflareIPData) :
    SameMeasurement (getLossRate cf).2 cf := by
  unfold getLossRate SameMeasurement
  split_ifs <;> simp

theorem getLossRate_snd_lossRate (cf : CloudflareIPData) :
    (getLossRate cf).2.lossRate = (getLossRate cf).1 := by
  unfold getLossRate
  split_ifs <;> rfl

/-- C14. For every input and every configuration: `FilterDelay(s)` is a
subsequence of `s`; `FilterLossRate(s)` is, record for record, a subsequence
`kept` of `s` in which each kept record agrees with its input record on `IP`,
`Sended`, `Received`, `Delay`, `Colo` and `DownloadSpeed` and differs at most by
carrying its loss rate in the cache; and both calls leave the slice `s` as it
was. -/
theorem filters_only_select (cfg : Config) (s : PingDelaySet) :
    (FilterDelay cfg s).Sublist s ∧
    (∃ kept : List CloudflareIPData, kept.Sublist s ∧
      List.Forall₂ (fun out inp => SameMeasurement out inp ∧
        (out = inp ∨ out = { inp with lossRate := (getLossRate inp).1 }))
        (FilterLossRate cfg s) kept) ∧
    FilterDelay.exec cfg s = (FilterDelay cfg s, s) ∧
    FilterLossRate.exec cfg s = (FilterLossRate cfg s, s) := by
  refine ⟨?_, ?_, ?_, ?_⟩
  · unfold FilterDelay
    split_ifs
    · exact List.Sublist.refl s
    · exact List.Sublist.refl s
    · exact FilterDelay_loop_sublist cfg s
  · unfold FilterLossRate
    split_ifs
    · refine ⟨s, List.Sublist.refl s, ?_⟩
      rw [List.forall₂_same]
      intro r _
      exact ⟨⟨rfl, rfl, rfl, rfl, rfl, rfl⟩, Or.inl rfl⟩
    · refine ⟨s.takeWhile (fun r => !GoFloat.gt (getLossRate r).1 cfg.InputMaxLossRate),
        List.takeWhile_sublist _, ?_⟩
      rw [FilterLossRate.loop_eq_takeWhile, List.forall₂_map_left_iff, List.forall₂_same]
      intro r _
      refine ⟨getLossRate_sameMeasurement r, Or.inr ?_⟩
      have h1 := getLossRate_sameMeasurement r
      have h2 := getLossRate_snd_lossRate r
      unfold SameMeasurement at h1
      obtain ⟨a, b, c, d, e, f⟩ := h1
      cases hr : (getLossRate r).2
      cases r
      simp only [hr] at a b c d e f h2
      simp [a, b, c, d, e, f, h2]
  · unfold FilterDelay.exec FilterDelay
    split_ifs
    · rfl
    · rfl
    · rw [FilterDelay_loopMem_eq]; simp
  · unfold FilterLossRate.exec FilterLossRate
    split_ifs
    · rfl
    · rw [FilterLossRate_loopMem_eq]; simp

/-! ## Evaluating the rounding -/

theorem roundHalfEven_eq_of_near {q : ℚ} {n : ℤ} (h₁ : (n : ℚ) - 1 / 2 < q)
    (h₂ : q < (n : ℚ) + 1 / 2) : roundHalfEven q = n := by
  have h := abs_roundHalfEven_sub_le q
  rw [abs_le] at h
  have hlt : ((roundHalfEven q : ℤ) : ℚ) < ((n + 1 : ℤ) : ℚ) := by push_cast; linarith
  have hgt : ((n - 1 : ℤ) : ℚ) < ((roundHalfEven q : ℤ) : ℚ) := by push_cast; linarith
  have h3 : roundHalfEven q < n + 1 := by exact_mod_cast hlt
  have h4 : n - 1 < roundHalfEven q := by exact_mod_cast hgt
  omega

theorem binade_eq_of_bracket (fmt : FloatFormat) {q : ℚ} {e : ℤ} (he : fmt.emin ≤ e)
    (h₁ : (2 : ℚ) ^ e ≤ q) (h₂ : q < 2 ^ (e + 1)) : binade fmt q = e := by
  have hq : (0 : ℚ) < q := lt_of_lt_of_le (by positivity) h₁
  have hle : e ≤ Int.log 2 q :=
    (Int.zpow_le_iff_le_log (b := 2) (by norm_num) hq).mp (by exact_mod_cast h₁)
  have hlt : Int.log 2 q < e + 1 :=
    (Int.lt_zpow_iff_log_lt (b := 2) (by norm_num) hq).mp (by exact_mod_cast h₂)
  unfold binade
  rw [max_eq_left (by omega)]
  omega

/-- The rounding of a magnitude whose binade `e` and nearest multiple `n` of
the quantum are known. -/
theorem roundMag_eq_of_bracket (fmt : FloatFormat) {q : ℚ} {e n : ℤ} (he : fmt.emin ≤ e)
    (h₁ : (2 : ℚ) ^ e ≤ q) (h₂ : q < 2 ^ (e + 1))
    (hlo : ((n : ℚ) - 1 / 2) * 2 ^ (e - ((fmt.prec : ℤ) - 1)) < q)
    (hhi : q < ((n : ℚ) + 1 / 2) * 2 ^ (e - ((fmt.prec : ℤ) - 1))) :
    roundMag fmt q = (n : ℚ) * 2 ^ (e - ((fmt.prec : ℤ) - 1)) := by
  have hu : ulp fmt q = 2 ^ (e - ((fmt.prec : ℤ) - 1)) := by
    unfold ulp
    rw [binade_eq_of_bracket fmt he h₁ h₂]
  have hpos : (0 : ℚ) < 2 ^ (e - ((fmt.prec : ℤ) - 1)) := by positivity
  unfold roundMag
  rw [hu, roundHalfEven_eq_of_near (n := n)]
  · rw [lt_div_iff₀ hpos]; exact hlo
  · rw [div_lt_iff₀ hpos]; exact hhi

theorem GoFloat.ofMag_eq_fin (fmt : FloatFormat) (s : Bool) {q r : ℚ} (h : roundMag fmt q = r)
    (hr : r < 2 ^ (fmt.emax + 1)) : GoFloat.ofMag fmt s q = GoFloat.fin s r := by
  unfold GoFloat.ofMag
  rw [h, if_pos hr]

theorem GoFloat.ofMag_zero (fmt : FloatFormat) (s : Bool) :
    GoFloat.ofMag fmt s 0 = GoFloat.fin s 0 :=
  GoFloat.ofMag_eq_fin fmt s (roundMag_zero fmt) (by positivity)

/-! ## Theorems: `toString` -/

theorem formatFixed_zero : formatFixed 0 2 = "0.00" := by
  unfold formatFixed
  have : roundHalfEven ((0 : ℚ) * 10 ^ 2) = 0 := by
    rw [zero_mul]; exact_mod_cast roundHalfEven_intCast 0
  rw [this]
  decide

theorem formatFixed_twenty : formatFixed 20 2 = "20.00" := by
  unfold formatFixed
  have : roundHalfEven ((20 : ℚ) * 10 ^ 2) = 2000 := by
    have h : ((20 : ℚ) * 10 ^ 2) = ((2000 : ℤ) : ℚ) := by norm_num
    rw [h, roundHalfEven_intCast]
  rw [this]
  decide

theorem FormatFloat32_fin (s : Bool) {m r : ℚ} (prec : Nat) (h : roundMag binary32 m = r)
    (hr : r < 2 ^ (binary32.emax + 1)) :
    FormatFloat32 (GoFloat.fin s m) prec = (if s then "-" else "") ++ formatFixed r prec := by
  have h' : GoFloat.toFloat32 (GoFloat.fin s m) = GoFloat.fin s r := by
    simp only [GoFloat.toFloat32]
    exact GoFloat.ofMag_eq_fin binary32 s h hr
  unfold FormatFloat32
  rw [h']

theorem FormatFloat32_zero : FormatFloat32 (GoFloat.fin false 0) 2 = "0.00" := by
  rw [FormatFloat32_fin false 2 (roundMag_zero binary32) (by positivity), formatFixed_zero]
  decide

theorem FormatFloat32_twenty : FormatFloat32 (GoFloat.fin false 20) 2 = "20.00" := by
  have h : roundMag binary32 20 = 20 := by
    have := roundMag_binary32_intCast (n := 20) (by decide) (by decide)
    exact_mod_cast this
  have hlt : (20 : ℚ) < 2 ^ (binary32.emax + 1) :=
    lt_of_lt_of_le (by norm_num : (20 : ℚ) < 2 ^ (5 : ℤ))
      (zpow_le_zpow_right₀ (by norm_num) (by decide))
  rw [FormatFloat32_fin false 2 h hlt, formatFixed_twenty]
  decide

theorem GoFloat.ofInt_binary64_zero : GoFloat.ofInt binary64 0 = GoFloat.fin false 0 := by
  unfold GoFloat.ofInt
  simp only [Int.cast_zero, abs_zero, lt_self_iff_false, decide_False]
  exact GoFloat.ofMag_zero binary64 false

theorem GoFloat.ofInt_binary64_of_small {n : ℤ} (h0 : 0 < n) (h : n < 2 ^ 53) :
    GoFloat.ofInt binary64 n = GoFloat.fin false (n : ℚ) := by
  have hq : |(n : ℚ)| = n := abs_of_nonneg (by exact_mod_cast h0.le)
  have hlt : (n : ℚ) < 2 ^ ((53 : ℕ) : ℤ) := by
    have : (n : ℚ) < ((2 ^ 53 : ℤ) : ℚ) := by exact_mod_cast h
    norm_num at this ⊢
    exact this
  unfold GoFloat.ofInt
  rw [hq, decide_eq_false (not_lt.mpr h0.le)]
  apply GoFloat.ofMag_eq_fin binary64 false
    (roundMag_intCast_of_lt binary64 (by decide) h0 hlt)
  exact lt_trans hlt (zpow_lt_zpow_right₀ (by norm_num) (by decide))

/-- A delay of 20ms is 0.02 seconds, as the nearest `float64`. -/
theorem Seconds_cleanRecord :
    Duration.Seconds cleanRecord.Delay =
      GoFloat.fin false ((5764607523034235 : ℤ) * 2 ^ (-58 : ℤ)) := by
  have hsec : Int.tdiv cleanRecord.Delay second = 0 := by decide
  have hnsec : Int.tmod cleanRecord.Delay second = 20000000 := by decide
  have hdiv : roundMag binary64 ((20000000 : ℚ) / 1000000000) =
      ((5764607523034235 : ℤ) : ℚ) * 2 ^ (-58 : ℤ) := by
    have := roundMag_eq_of_bracket binary64 (q := (20000000 : ℚ) / 1000000000) (e := -6)
      (n := 5764607523034235) (by decide) (by norm_num) (by norm_num)
      (by norm_num [binary64]) (by norm_num [binary64])
    rw [this]
    norm_num [binary64]
  have hsmall : ((5764607523034235 : ℤ) : ℚ) * 2 ^ (-58 : ℤ) < 2 ^ (binary64.emax + 1) :=
    lt_of_lt_of_le (by norm_num : ((5764607523034235 : ℤ) : ℚ) * 2 ^ (-58 : ℤ) < 2 ^ (0 : ℤ))
      (zpow_le_zpow_right₀ (by norm_num) (by decide))
  have hpos : (0 : ℚ) < ((5764607523034235 : ℤ) : ℚ) * 2 ^ (-58 : ℤ) := by positivity
  unfold Duration.Seconds
  simp only [hsec, hnsec]
  rw [GoFloat.ofInt_binary64_zero, GoFloat.ofInt_binary64_of_small (by decide) (by decide)]
  have hq : GoFloat.div binary64 (GoFloat.fin false ((20000000 : ℤ) : ℚ))
      (GoFloat.fin false 1000000000) =
      GoFloat.fin false (((5764607523034235 : ℤ) : ℚ) * 2 ^ (-58 : ℤ)) := by
    simp only [GoFloat.div, Bool.xor_false]
    rw [if_neg (by norm_num)]
    push_cast
    exact GoFloat.ofMag_eq_fin binary64 false hdiv hsmall
  rw [hq]
  simp only [GoFloat.add, GoFloat.signed, Bool.false_eq_true, if_false, zero_add, Bool.and_self]
  rw [if_neg hpos.ne', abs_of_pos hpos, decide_eq_false (not_lt.mpr hpos.le)]
  exact GoFloat.ofMag_eq_fin binary64 false
    (roundMag_eq_self_of_dyadic binary64 5764607523034235 (-58) (by decide)
      (by norm_num [binary64]) (by decide)) hsmall

/-- The delay of 20ms, in milliseconds, is exactly 20. -/
theorem delayMs_cleanRecord :
    GoFloat.mul binary64 (Duration.Seconds cleanRecord.Delay) (GoFloat.fin false 1000) =
      GoFloat.fin false 20 := by
  rw [Seconds_cleanRecord]
  simp only [GoFloat.mul, Bool.xor_false]
  have h : roundMag binary64 (((5764607523034235 : ℤ) : ℚ) * 2 ^ (-58 : ℤ) * 1000) = 20 := by
    have := roundMag_eq_of_bracket binary64
      (q := ((5764607523034235 : ℤ) : ℚ) * 2 ^ (-58 : ℤ) * 1000) (e := 4)
      (n := 5629499534213120) (by decide) (by norm_num) (by norm_num)
      (by norm_num [binary64]) (by norm_num [binary64])
    rw [this]
    norm_num [binary64]
  exact GoFloat.ofMag_eq_fin binary64 false h
    (lt_of_lt_of_le (by norm_num : (20 : ℚ) < 2 ^ (5 : ℤ))
      (zpow_le_zpow_right₀ (by norm_num) (by decide)))

theorem speedMiB_zero :
    GoFloat.div binary64 (GoFloat.div binary64 (GoFloat.fin false 0) (GoFloat.fin false 1024))
      (GoFloat.fin false 1024) = GoFloat.fin false 0 := by
  have h : GoFloat.div binary64 (GoFloat.fin false 0) (GoFloat.fin false 1024) =
      GoFloat.fin false 0 := by
    simp only [GoFloat.div, Bool.xor_false]
    rw [if_neg (by norm_num), zero_div]
    exact GoFloat.ofMag_zero binary64 false
  rw [h, h]

theorem convertToString_eq_map (data : List CloudflareIPData) :
    convertToString data = data.map (fun v => (toString v).1) := by
  unfold convertToString
  rw [foldl_append_singleton (fun v => (toString v).1)]
  simp

/-- With two decimals, the digits are those of the nearest hundredth. -/
theorem formatFixed_two (r : ℚ) (hr : 0 ≤ r) :
    formatFixed r 2 =
        Nat.repr ((roundHalfEven (r * 100)).toNat / 100) ++ "." ++
          digitString ((roundHalfEven (r * 100)).toNat / 10 % 10) ++
          digitString ((roundHalfEven (r * 100)).toNat % 10) ∧
      |(((roundHalfEven (r * 100)).toNat : ℕ) : ℚ) / 100 - r| ≤ 1 / 200 := by
  constructor
  · have h100 : (10 : ℚ) ^ 2 = 100 := by norm_num
    unfold formatFixed
    simp [List.range_succ, String.join, String.append_assoc, h100]
  · have hn : (0 : ℤ) ≤ roundHalfEven (r * 100) :=
      le_roundHalfEven (by simpa using mul_nonneg hr (by norm_num : (0 : ℚ) ≤ 100))
    have hcast : (((roundHalfEven (r * 100)).toNat : ℕ) : ℚ) =
        ((roundHalfEven (r * 100) : ℤ) : ℚ) := by
      have := Int.toNat_of_nonneg hn
      exact_mod_cast this
    rw [hcast]
    have h := abs_roundHalfEven_sub_le (r * 100)
    rw [abs_le] at h ⊢
    constructor <;> linarith

/-- C12. For every record `toString` returns exactly seven fields: the address
text followed by `#` and `Colo`; the decimal text of `Sended`; that of
`Received`; the loss rate, the delay in milliseconds (`Delay.Seconds()*1000`)
and `DownloadSpeed/1024/1024`, each formatted by `FormatFloat(_, 'f', 2, 32)`,
which for a finite value is the decimal numeral with two digits after the
point nearest to the `float32` value; and `Colo`.  `convertToString` returns
one such row per record, in input order.  The record
`{1.1.1.1, sent 10, received 10, delay 20ms, "LAX", speed 0}` gives
`["1.1.1.1#LAX","10","10","0.00","20.00","0.00","LAX"]`. -/
theorem toString_row_shape :
    (∀ cf : CloudflareIPData,
      (toString cf).1.length = 7 ∧
      (toString cf).1 =
        [cf.IP.String ++ "#" ++ cf.Colo, Itoa cf.Sended, Itoa cf.Received,
          FormatFloat32 (getLossRate cf).1 2,
          FormatFloat32
            (GoFloat.mul binary64 (Duration.Seconds cf.Delay) (GoFloat.fin false 1000)) 2,
          FormatFloat32 (GoFloat.div binary64
            (GoFloat.div binary64 cf.DownloadSpeed (GoFloat.fin false 1024))
            (GoFloat.fin false 1024)) 2,
          cf.Colo]) ∧
    (∀ (s : Bool) (m r : ℚ), 0 ≤ m → roundMag binary32 m = r → r < 2 ^ (binary32.emax + 1) →
      FormatFloat32 (GoFloat.fin s m) 2 =
          (if s then "-" else "") ++
            (Nat.repr ((roundHalfEven (r * 100)).toNat / 100) ++ "." ++
              digitString ((roundHalfEven (r * 100)).toNat / 10 % 10) ++
              digitString ((roundHalfEven (r * 100)).toNat % 10)) ∧
        |(((roundHalfEven (r * 100)).toNat : ℕ) : ℚ) / 100 - r| ≤ 1 / 200) ∧
    (∀ data : List CloudflareIPData,
      convertToString data = data.map (fun v => (toString v).1) ∧
        (convertToString data).length = data.length) ∧
    (toString cleanRecord).1 = ["1.1.1.1#LAX", "10", "10", "0.00", "20.00", "0.00", "LAX"] := by
  refine ⟨fun cf => ⟨rfl, rfl⟩, ?_, ?_, ?_⟩
  · intro s m r hm hr hlt
    have hr0 : 0 ≤ r := hr ▸ roundMag_nonneg binary32 hm
    rw [FormatFloat32_fin s 2 hr hlt, (formatFixed_two r hr0).1]
    exact ⟨rfl, (formatFixed_two r hr0).2⟩
  · intro data
    rw [convertToString_eq_map, List.length_map]
    exact ⟨rfl, rfl⟩
  · unfold toString
    simp only
    rw [cleanRecord_lossRate, delayMs_cleanRecord]
    have h5 : cleanRecord.DownloadSpeed = GoFloat.fin false 0 := rfl
    rw [h5, speedMiB_zero, FormatFloat32_zero, FormatFloat32_twenty]
    decide

theorem toString_row_shape_witness :
    FormatFloat32 (GoFloat.fin false (1 / 2)) 2 =
        (if false then "-" else "") ++
          (Nat.repr ((roundHalfEven ((1 / 2 : ℚ) * 100)).toNat / 100) ++ "." ++
            digitString ((roundHalfEven ((1 / 2 : ℚ) * 100)).toNat / 10 % 10) ++
            digitString ((roundHalfEven ((1 / 2 : ℚ) * 100)).toNat % 10)) ∧
      |(((roundHalfEven ((1 / 2 : ℚ) * 100)).toNat : ℕ) : ℚ) / 100 - 1 / 2| ≤ 1 / 200 :=
  toString_row_shape.2.1 false (1 / 2) (1 / 2) (by norm_num)
    (by
      have h := roundMag_eq_self_of_dyadic binary32 1 (-1) (by decide) (by norm_num [binary32])
        (by decide)
      norm_num at h ⊢
      exact h)
    (lt_of_lt_of_le (by norm_num : (1 / 2 : ℚ) < 2 ^ (0 : ℤ))
      (zpow_le_zpow_right₀ (by norm_num) (by decide)))

/-! ## Theorems: `ExportCsv` -/

/-- C15, as stated, fails: an `Output` of two spaces consists only of
whitespace, yet `noOutput()` is false and `ExportCsv` creates the file named by
the two spaces. -/
theorem blank_output_creates_file :
    (∀ c ∈ blankConfig.Output.data, c.isWhitespace = true) ∧ blankConfig.Output ≠ "" ∧
      noOutput blankConfig = false ∧
      (ExportCsv blankConfig createSucceeds (ExportCsv.colos twoRegions) twoRegions).head? =
        some (FileEvent.create "  ") := by
  refine ⟨by decide, by decide, by decide, ?_⟩
  simp [ExportCsv, noOutput, blankConfig, defaultConfig, createSucceeds, twoRegions]

/-- C15, amended. `noOutput()` is true exactly when `Output` is the empty
string or the single space `" "`; for these two values, and for an empty input
collection under any `Output`, `ExportCsv` returns without creating a file;
for any other `Output`, blank or not, and a non-empty input, `ExportCsv` calls
`os.Create` on `Output`. -/
theorem ExportCsv_skipped (cfg : Config) (createFails : String → Bool) (it : ColoMap)
    (data : List CloudflareIPData) :
    (noOutput cfg = true ↔ (cfg.Output = "" ∨ cfg.Output = " ")) ∧
    ((cfg.Output = "" ∨ cfg.Output = " ") → ExportCsv cfg createFails it data = []) ∧
    ExportCsv cfg createFails it [] = [] ∧
    (¬ (cfg.Output = "" ∨ cfg.Output = " ") → data ≠ [] →
      (ExportCsv cfg createFails it data).head? =
        some (if createFails cfg.Output then FileEvent.fatal cfg.Output
          else FileEvent.create cfg.Output)) := by
  refine ⟨?_, ?_, ?_, ?_⟩
  · simp [noOutput]
  · intro h
    unfold ExportCsv
    rw [if_pos (Or.inl (by simpa [noOutput] using h))]
  · unfold ExportCsv
    rw [if_pos (Or.inr List.length_nil)]
  · intro h hd
    unfold ExportCsv
    have hlen : data.length ≠ 0 := by simpa using hd
    rw [if_neg (by
      intro h'
      rcases h' with h' | h'
      · exact h (by simpa [noOutput] using h')
      · exact hlen h')]
    simp only
    split_ifs <;> rfl

theorem ExportCsv_skipped_witness :
    ExportCsv { defaultConfig with Output := " " } createSucceeds (ExportCsv.colos twoRegions)
      twoRegions = [] :=
  (ExportCsv_skipped { defaultConfig with Output := " " } createSucceeds
    (ExportCsv.colos twoRegions) twoRegions).2.1 (by decide)

/-! ## Theorems: `DownloadSpeedSet.Print` -/

/-- C16, as stated, fails: with the default `PrintNum` the empty collection
makes `Print` write a line to the console. -/
theorem Print_empty_writes_message :
    (Print defaultConfig []).1 =
        [ConsoleEvent.println "\n[信息] 完整测速结果 IP 数量为 0，跳过输出结果。"] ∧
      (Print defaultConfig []).1 ≠ [] := by
  constructor <;> decide

/-- C16, amended. For the empty collection `Print` writes nothing when
`PrintNum` is zero, and for every other `PrintNum` it writes exactly one line,
the message that the result is empty: no header and no data row; `PrintNum` is
left as it was. -/
theorem Print_empty (cfg : Config) :
    (cfg.PrintNum = 0 → (Print cfg []).1 = []) ∧
    (cfg.PrintNum ≠ 0 → (Print cfg []).1 =
      [ConsoleEvent.println "\n[信息] 完整测速结果 IP 数量为 0，跳过输出结果。"]) ∧
    (Print cfg []).2 = cfg := by
  unfold Print NoPrintResult
  refine ⟨fun h => ?_, fun h => ?_, ?_⟩
  · simp [h]
  · simp [h]
  · split_ifs <;> simp at *

theorem Print_empty_witness :
    (Print { defaultConfig with PrintNum := 0 } []).1 = [] :=
  (Print_empty { defaultConfig with PrintNum := 0 }).1 (by decide)

theorem Print_formats_eq (rows : List (List String)) :
    Print.formats rows =
      if ∃ row ∈ rows, strLen (row.getD 0 "") > 15 then wideFormats else narrowFormats := by
  induction rows with
  | nil => simp [Print.formats]
  | cons row rest ih =>
    simp only [Print.formats]
    by_cases h : strLen (row.getD 0 "") > 15
    · rw [if_pos h, if_pos ⟨row, List.mem_cons_self _ _, h⟩]
    · rw [if_neg h, ih]
      by_cases h' : ∃ row ∈ rest, strLen (row.getD 0 "") > 15
      · obtain ⟨r, hr, hr'⟩ := h'
        rw [if_pos ⟨r, hr, hr'⟩, if_pos ⟨r, List.mem_cons_of_mem _ hr, hr'⟩]
      · rw [if_neg h', if_neg]
        rintro ⟨r, hr, hr'⟩
        rcases List.mem_cons.mp hr with rfl | hr
        · exact h hr'
        · exact h' ⟨r, hr, hr'⟩

theorem utf8Size_of_ascii (c : Char) (h : c.toNat < 128) : c.utf8Size = 1 := by
  unfold Char.utf8Size
  have h1 : c.val ≤ 127 := by
    show c.val.toNat ≤ 127
    unfold Char.toNat at h
    omega
  simp only
  rw [if_pos]
  exact h1

/-- For a string of ASCII characters the length in bytes is the number of
characters. -/
theorem strLen_of_ascii (str : String) (h : ∀ c ∈ str.data, c.toNat < 128) :
    strLen str = str.length := by
  obtain ⟨cs⟩ := str
  unfold strLen
  simp only [String.utf8ByteSize_mk, String.length]
  induction cs with
  | nil => rfl
  | cons c rest ih =>
    rw [String.utf8Len_cons, ih (fun c hc => h c (List.mem_cons_of_mem _ hc)),
      utf8Size_of_ascii c (h c (List.mem_cons_self _ _))]
    simp

/-- C18, as stated, fails: field 0 of the row of `cjkRecord`, `1.1.1.1#洛杉矶`,
has eleven characters, not more than fifteen, but seventeen bytes, and `Print`
uses the wide templates. -/
theorem Print_wide_for_eleven_characters :
    ((toString cjkRecord).1.getD 0 "").length = 11 ∧
      strLen ((toString cjkRecord).1.getD 0 "") = 17 ∧
      (Print defaultConfig [cjkRecord]).1.head? =
        some (ConsoleEvent.printf "%-40s%-5s%-5s%-5s%-6s%-11s%-10s\n" headerRow) := by
  refine ⟨by decide, by decide, ?_⟩
  have h : Print.formats ((convertToString [cjkRecord]).take 1) = wideFormats := by
    rw [convertToString_eq_map]
    simp only [List.map_cons, List.map_nil, List.take_succ_cons, List.take_zero, Print.formats]
    rw [if_pos (by decide)]
  unfold Print
  rw [if_neg (by decide), if_neg (by decide)]
  simp only
  have hN : (if ((convertToString [cjkRecord]).length : Int) < defaultConfig.PrintNum
      then ((convertToString [cjkRecord]).length : Int) else defaultConfig.PrintNum).toNat = 1 := by
    rw [convertToString_eq_map]
    decide
  rw [hN, h]
  rfl

/-- C18, amended. For a non-empty collection and `PrintNum > 0`, `Print` writes
the header row, then exactly `N = min(PrintNum, len(s))` data rows, the first
`N` rows of `convertToString(s)` in order, then the note naming `Output` unless
`noOutput()`; it leaves `PrintNum = N`.  It uses the wide (40/42-column)
templates iff at least one of those `N` rows has a field 0 (the address text,
`#`, `Colo`) longer than 15 bytes, the narrow (16/18-column) templates
otherwise; for a field 0 of ASCII characters the length in bytes is the number
of characters. -/
theorem Print_rows_and_templates (cfg : Config) (s : DownloadSpeedSet) (hs : s ≠ [])
    (hp : 0 < cfg.PrintNum) :
    (Print cfg s).1 =
        [ConsoleEvent.printf
          (if ∃ row ∈ (convertToString s).take (min cfg.PrintNum.toNat s.length),
              strLen (row.getD 0 "") > 15 then wideFormats else narrowFormats).1 headerRow] ++
        ((convertToString s).take (min cfg.PrintNum.toNat s.length)).map
          (fun row => ConsoleEvent.printf
            (if ∃ row ∈ (convertToString s).take (min cfg.PrintNum.toNat s.length),
              strLen (row.getD 0 "") > 15 then wideFormats else narrowFormats).2 row) ++
        (if noOutput cfg then []
         else [ConsoleEvent.printf
          "\n完整测速结果已写入 %v 文件，可使用记事本/表格软件查看。\n" [cfg.Output]]) ∧
      ((convertToString s).take (min cfg.PrintNum.toNat s.length)).length =
        min cfg.PrintNum.toNat s.length ∧
      (Print cfg s).2.PrintNum = ((min cfg.PrintNum.toNat s.length : ℕ) : ℤ) ∧
      (∀ v : CloudflareIPData, (toString v).1.getD 0 "" = v.IP.String ++ "#" ++ v.Colo) ∧
      (∀ str : String, (∀ c ∈ str.data, c.toNat < 128) → strLen str = str.length) ∧
      wideFormats = ("%-40s%-5s%-5s%-5s%-6s%-11s%-10s\n", "%-42s%-8s%-8s%-8s%-10s%-15s%-6s\n") ∧
      narrowFormats =
        ("%-16s%-5s%-5s%-5s%-6s%-11s%-10s\n", "%-18s%-8s%-8s%-8s%-10s%-15s%-6s\n") := by
  have hlen : (convertToString s).length = s.length := by
    rw [convertToString_eq_map, List.length_map]
  have hpos : 0 < s.length := List.length_pos.mpr hs
  have hN : (if ((convertToString s).length : Int) < cfg.PrintNum
      then ((convertToString s).length : Int) else cfg.PrintNum).toNat =
        min cfg.PrintNum.toNat s.length := by
    rw [hlen]
    split_ifs with h
    · rw [Int.toNat_ofNat, min_eq_right]
      omega
    · rw [min_eq_left]
      omega
  have hN' : (if ((convertToString s).length : Int) < cfg.PrintNum
      then ((convertToString s).length : Int) else cfg.PrintNum) =
        ((min cfg.PrintNum.toNat s.length : ℕ) : ℤ) := by
    rw [← hN, Int.toNat_of_nonneg]
    split_ifs <;> omega
  refine ⟨?_, ?_, ?_, fun v => rfl, strLen_of_ascii, rfl, rfl⟩
  · unfold Print NoPrintResult
    rw [if_neg (by simpa using hp.ne'), if_neg (by omega)]
    simp only
    rw [hN, Print_formats_eq]
  · rw [List.length_take, hlen]
    omega
  · unfold Print NoPrintResult
    rw [if_neg (by simpa using hp.ne'), if_neg (by omega)]
    exact hN'

theorem Print_rows_and_templates_witness :
    (Print defaultConfig twoRegions).2.PrintNum =
      ((min defaultConfig.PrintNum.toNat twoRegions.length : ℕ) : ℤ) :=
  (Print_rows_and_templates defaultConfig twoRegions (by decide) (by decide)).2.2.1

/-! ## Theorems: `Less` is a strict weak ordering -/

theorem GoFloat.lt_iff_key_lt {a b : GoFloat} (ha : a ≠ GoFloat.nan) (hb : b ≠ GoFloat.nan) :
    GoFloat.lt a b = true ↔ GoFloat.key a < GoFloat.key b := by
  cases a with
  | nan => exact absurd rfl ha
  | inf n₁ =>
    cases b with
    | nan => exact absurd rfl hb
    | inf n₂ => cases n₁ <;> cases n₂ <;> simp [GoFloat.lt, GoFloat.key]
    | fin s₂ m₂ => cases n₁ <;> simp [GoFloat.lt, GoFloat.key]
  | fin s₁ m₁ =>
    cases b with
    | nan => exact absurd rfl hb
    | inf n₂ =>
      cases n₂
      · simp only [GoFloat.lt, GoFloat.key, Bool.not_false, true_iff]
        exact WithBot.coe_lt_coe.mpr (WithTop.coe_lt_top _)
      · simp [GoFloat.lt, GoFloat.key]
    | fin s₂ m₂ => simp [GoFloat.lt, GoFloat.key]

theorem GoFloat.eq_iff_key_eq {a b : GoFloat} (ha : a ≠ GoFloat.nan) (hb : b ≠ GoFloat.nan) :
    GoFloat.eq a b = true ↔ GoFloat.key a = GoFloat.key b := by
  cases a with
  | nan => exact absurd rfl ha
  | inf n₁ =>
    cases b with
    | nan => exact absurd rfl hb
    | inf n₂ => cases n₁ <;> cases n₂ <;> simp [GoFloat.eq, GoFloat.key]
    | fin s₂ m₂ => cases n₁ <;> simp [GoFloat.eq, GoFloat.key]
  | fin s₁ m₁ =>
    cases b with
    | nan => exact absurd rfl hb
    | inf n₂ => cases n₂ <;> simp [GoFloat.eq, GoFloat.key]
    | fin s₂ m₂ => simp [GoFloat.eq, GoFloat.key]

theorem GoFloat.ofMag_ne_nan (fmt : FloatFormat) (s : Bool) (q : ℚ) :
    GoFloat.ofMag fmt s q ≠ GoFloat.nan := by
  unfold GoFloat.ofMag
  split_ifs <;> exact fun h => GoFloat.noConfusion h

theorem GoFloat.div_fin_ne_nan (fmt : FloatFormat) (a : GoFloat) (t : Bool) {n : ℚ}
    (ha : a ≠ GoFloat.nan) (hn : n ≠ 0) : GoFloat.div fmt a (GoFloat.fin t n) ≠ GoFloat.nan := by
  cases a with
  | nan => exact absurd rfl ha
  | inf s => simp [GoFloat.div]
  | fin s m =>
    simp only [GoFloat.div, if_neg hn]
    exact GoFloat.ofMag_ne_nan fmt _ _

/-- With a positive sent count the loss rate is not a NaN. -/
theorem RateDefined.lossRate_defined {r : CloudflareIPData} (h : RateDefined r) :
    (getLossRate r).1 ≠ GoFloat.nan := by
  obtain ⟨hS, h64, hc⟩ := h
  by_cases hz : GoFloat.eq r.lossRate GoFloat.zero = true
  · rw [getLossRate_fresh r hz]
    simp only
    rw [GoFloat.ofInt_binary32_of_nonneg hS.le h64.2]
    apply GoFloat.div_fin_ne_nan
    · exact GoFloat.ofMag_ne_nan _ _ _
    · have h1 : (1 : ℚ) ≤ (r.Sended : ℚ) := by exact_mod_cast (by omega : 1 ≤ r.Sended)
      have := roundMag_mono binary32 (by decide) zero_le_one h1
      rw [roundMag_one binary32 (by decide) (by decide)] at this
      linarith
  · rw [getLossRate_cached r (by simpa using hz)]
    exact hc

/-- On records whose loss rate is defined, `Less` is the strict lexicographic
order of the pairs (loss rate, delay). -/
theorem Less_iff_rankKey_lt (s : PingDelaySet) (hs : ∀ r ∈ s, RateDefined r) (i j : Nat)
    (hi : i < s.length) (hj : j < s.length) :
    (Less s i j).map Prod.fst = some (decide (rankKey s[i] < rankKey s[j])) := by
  have hni := (hs s[i] (List.getElem_mem _)).lossRate_defined
  have hnj := (hs s[j] (List.getElem_mem _)).lossRate_defined
  rw [Less_eq_lex s i j hi hj]
  congr 1
  rw [Bool.eq_iff_iff]
  simp only [Bool.or_eq_true, Bool.and_eq_true, decide_eq_true_eq, rankKey, Prod.Lex.lt_iff,
    GoFloat.lt_iff_key_lt hni hnj, GoFloat.eq_iff_key_eq hni hnj]

/-- C19. Over records with `Sended > 0` (in the `int64` range, the cache not
holding a NaN: the loss rates are then defined), `Less` is a strict weak
ordering: it is irreflexive, asymmetric and transitive, and its
incomparability relation (neither `Less(i, j)` nor `Less(j, i)`) is transitive
and holds exactly when the two records have equal loss rate and equal
`Delay`. -/
theorem Less_strict_weak_order (s : PingDelaySet) (hs : ∀ r ∈ s, RateDefined r) :
    (∀ (i : Nat), i < s.length → (Less s i i).map Prod.fst = some false) ∧
    (∀ (i j : Nat), i < s.length → j < s.length →
      (Less s i j).map Prod.fst = some true → (Less s j i).map Prod.fst = some false) ∧
    (∀ (i j k : Nat), i < s.length → j < s.length → k < s.length →
      (Less s i j).map Prod.fst = some true → (Less s j k).map Prod.fst = some true →
      (Less s i k).map Prod.fst = some true) ∧
    (∀ (i j : Nat) (hi : i < s.length) (hj : j < s.length),
      ((Less s i j).map Prod.fst = some false ∧ (Less s j i).map Prod.fst = some false) ↔
        (GoFloat.eq (getLossRate s[i]).1 (getLossRate s[j]).1 = true ∧
          s[i].Delay = s[j].Delay)) ∧
    (∀ (i j k : Nat), i < s.length → j < s.length → k < s.length →
      ((Less s i j).map Prod.fst = some false ∧ (Less s j i).map Prod.fst = some false) →
      ((Less s j k).map Prod.fst = some false ∧ (Less s k j).map Prod.fst = some false) →
      ((Less s i k).map Prod.fst = some false ∧ (Less s k i).map Prod.fst = some false)) := by
  have hL := Less_iff_rankKey_lt s hs
  have hinc : ∀ (i j : Nat) (hi : i < s.length) (hj : j < s.length),
      ((Less s i j).map Prod.fst = some false ∧ (Less s j i).map Prod.fst = some false) ↔
        rankKey s[i] = rankKey s[j] := by
    intro i j hi hj
    rw [hL i j hi hj, hL j i hj hi]
    simp only [Option.some.injEq, decide_eq_false_iff_not, not_lt]
    exact ⟨fun h => le_antisymm h.2 h.1, fun h => ⟨h.ge, h.le⟩⟩
  refine ⟨?_, ?_, ?_, ?_, ?_⟩
  · intro i hi
    rw [hL i i hi hi]
    simp
  · intro i j hi hj h
    rw [hL i j hi hj] at h
    rw [hL j i hj hi]
    simp only [Option.some.injEq, decide_eq_true_eq] at h
    simp only [Option.some.injEq, decide_eq_false_iff_not, not_lt]
    exact h.le
  · intro i j k hi hj hk h1 h2
    rw [hL i j hi hj] at h1
    rw [hL j k hj hk] at h2
    rw [hL i k hi hk]
    simp only [Option.some.injEq, decide_eq_true_eq] at h1 h2 ⊢
    exact lt_trans h1 h2
  · intro i j hi hj
    have hni := (hs s[i] (List.getElem_mem _)).lossRate_defined
    have hnj := (hs s[j] (List.getElem_mem _)).lossRate_defined
    rw [hinc i j hi hj, GoFloat.eq_iff_key_eq hni hnj]
    unfold rankKey
    rw [EmbeddingLike.apply_eq_iff_eq, Prod.mk.injEq]
  · intro i j k hi hj hk h1 h2
    rw [hinc i j hi hj] at h1
    rw [hinc j k hj hk] at h2
    rw [hinc i k hi hk]
    exact h1.trans h2

theorem Less_strict_weak_order_witness :
    (Less [cleanRecord, lossyRecord] 0 0).map Prod.fst = some false :=
  (Less_strict_weak_order [cleanRecord, lossyRecord] (by decide)).1 0 (by decide)

end CfAddress
